import Mathlib

/-!
A verification development for `bitsetbuffer`.

A shallow embedding of `bitset.go`: the bit store (`BitSetBuffer`), its byte
adapter, the endianness transform and the integer codec, followed by theorems
about them.

Conventions of the embedding.

* A Go `[]bool` is a `List Bool`, a Go `[]byte` is a `List Nat` whose elements
  are below `256`, a `uint64` is a `Nat` below `2 ^ 64`, an `int64` is an `Int`
  in `[-2 ^ 63, 2 ^ 63)`.  Arithmetic that Go performs in a fixed width carries
  an explicit `%`.
* A destination slice that may be `nil` is an `Option (List _)`; `none` is the
  `nil` slice.  Operations that fill a destination return its new contents.
  The store `Set` is only measured, indexed and appended to, so the `nil` store
  and the empty store are both the empty list.
* The cursor `pos` and the widths `numOfBits` are natural numbers: the cursor is
  only ever assigned `0`, a length, a saved cursor or a cursor plus a count, and
  a negative width makes `make` panic before anything is read or written.
* Methods with a pointer receiver take the buffer and return the new buffer.
* A result of type `Option _` is `none` when the Go code does not return
  normally (an index out of range), or when a loop that is given fuel has used
  all of it.
-/

namespace bitsetbuffer

/-- The `error` values the package returns. -/
inductive GoError where
  | nilPassedIn
  | noBitsToRead
  | EOF
  | onlyBitsWritten (n numOfBits : Nat)
  | onlyBitsRead (n numOfBits : Nat)
  | expectedToStore (want got : Nat)
  deriving DecidableEq, Repr

/-- The two byte orders of `encoding/binary` the codec is used with. -/
inductive ByteOrder where
  | LittleEndian
  | BigEndian
  deriving DecidableEq, Repr

/-- The struct `BitSetBuffer`: the cursor `pos` and the bits `Set`. -/
structure BitSetBuffer where
  pos : Nat
  Set : List Bool
  deriving DecidableEq, Repr

/-- The function `min` of the source. -/
protected def min (a b : Nat) : Nat :=
  if a < b then a else b

namespace BitSetBuffer

/-- The zero value `BitSetBuffer{}`. -/
def empty : BitSetBuffer := { pos := 0, Set := [] }

def ResetToStart (bsb : BitSetBuffer) : BitSetBuffer :=
  { bsb with pos := 0 }

def ResetToEnd (bsb : BitSetBuffer) : BitSetBuffer :=
  { bsb with pos := bsb.Set.length }

def PosAtEnd (bsb : BitSetBuffer) : Bool :=
  bsb.pos == bsb.Set.length

/-- The method `ReadBit`: the bit, the error, and the buffer afterwards. -/
def ReadBit (bsb : BitSetBuffer) : (Bool × Option GoError) × BitSetBuffer :=
  if h : bsb.Set.length ≤ bsb.pos then
    ((false, some GoError.noBitsToRead), bsb)
  else
    ((bsb.Set[bsb.pos], none), { bsb with pos := bsb.pos + 1 })

/-- The loop of `ReadBits`; the first argument counts the iterations that are
left, `len(bits) - n`. -/
def ReadBits.loop : Nat → Nat → List Bool → BitSetBuffer → Nat × List Bool × BitSetBuffer
  | 0, n, bits, bsb => (n, bits, bsb)
  | k + 1, n, bits, bsb =>
    if h : bsb.pos ≥ bsb.Set.length then
      (n, bits, bsb)
    else
      ReadBits.loop k (n + 1) (bits.set n bsb.Set[bsb.pos]) { bsb with pos := bsb.pos + 1 }

/-- The method `ReadBits`: the count and error, the contents of the
destination afterwards (empty for a `nil` destination), and the buffer. -/
def ReadBits (bsb : BitSetBuffer) (bits : Option (List Bool)) :
    (Nat × Option GoError) × List Bool × BitSetBuffer :=
  match bits with
  | none => ((0, some GoError.nilPassedIn), [], bsb)
  | some bits =>
    let r := ReadBits.loop bits.length 0 bits bsb
    ((r.1, none), r.2.1, r.2.2)

def WriteBit (bsb : BitSetBuffer) (bit : Bool) : BitSetBuffer :=
  if bsb.pos < bsb.Set.length then
    { pos := bsb.pos + 1, Set := bsb.Set.set bsb.pos bit }
  else
    { pos := bsb.pos + 1, Set := bsb.Set ++ [bit] }

/-- The method `WriteBits`: the loop calls `WriteBit` on each element in order
and counts them in `n`. -/
def WriteBits (bsb : BitSetBuffer) (bits : List Bool) : (Nat × Option GoError) × BitSetBuffer :=
  let r := bits.foldl (fun (acc : Nat × BitSetBuffer) bit => (acc.1 + 1, acc.2.WriteBit bit)) (0, bsb)
  ((r.1, none), r.2)

/-- The loop of `readByte`; the first argument counts the iterations that are
left, `8 - i`.  The early `return` leaves the loop with the byte built so far. -/
def readByte.loop (bsb : BitSetBuffer) : Nat → Nat → Nat → Nat
  | 0, _, b => b
  | k + 1, i, b =>
    let index := i + bsb.pos
    if h : index ≥ bsb.Set.length then
      b
    else
      readByte.loop bsb k (i + 1) (if bsb.Set[index] then b ||| ((1 <<< i) % 256) else b)

/-- The method `readByte`; the deferred function moves the cursor. -/
def readByte (bsb : BitSetBuffer) : Nat × BitSetBuffer :=
  (readByte.loop bsb 8 0 0, { bsb with pos := bitsetbuffer.min bsb.Set.length (bsb.pos + 8) })

def writeByte (bsb : BitSetBuffer) (b : Nat) : BitSetBuffer :=
  (List.range 8).foldl (fun (bsb : BitSetBuffer) i =>
    let value := decide (b &&& ((1 <<< i) % 256) > 0)
    if bsb.pos < bsb.Set.length then
      { pos := bsb.pos + 1, Set := bsb.Set.set bsb.pos value }
    else
      { pos := bsb.pos + 1, Set := bsb.Set ++ [value] }) bsb

/-- The loop of `Read`; the first argument counts the iterations that are left,
`len(bytes) - n`. -/
def Read.loop : Nat → Nat → List Nat → BitSetBuffer → Nat × List Nat × BitSetBuffer
  | 0, n, bytes, bsb => (n, bytes, bsb)
  | k + 1, n, bytes, bsb =>
    if bsb.PosAtEnd then
      (n, bytes, bsb)
    else
      Read.loop k (n + 1) (bytes.set n bsb.readByte.1) bsb.readByte.2

/-- The method `Read`: the count and error, the contents of the destination
afterwards (empty for a `nil` destination), and the buffer. -/
def Read (bsb : BitSetBuffer) (bytes : Option (List Nat)) :
    (Nat × Option GoError) × List Nat × BitSetBuffer :=
  match bytes with
  | none => ((0, some GoError.nilPassedIn), [], bsb)
  | some bytes =>
    if bsb.PosAtEnd then
      ((0, some GoError.EOF), bytes, bsb)
    else
      let r := Read.loop bytes.length 0 bytes bsb
      ((r.1, none), r.2.1, r.2.2)

/-- The method `Write`: the loop calls `writeByte` on each byte in order and
counts them in `n`. -/
def Write (bsb : BitSetBuffer) (bytes : List Nat) : (Nat × Option GoError) × BitSetBuffer :=
  let r := bytes.foldl (fun (acc : Nat × BitSetBuffer) b => (acc.1 + 1, acc.2.writeByte b)) (0, bsb)
  ((r.1, none), r.2)

/-- The loop of `Bytes`, which runs while the cursor is not at the end.  It is
given fuel and is `none` when the fuel is used up before the cursor is at the
end. -/
def Bytes.loop : Nat → BitSetBuffer → List Nat → Option (List Nat × BitSetBuffer)
  | 0, bsb, buf => if !bsb.PosAtEnd then none else some (buf, bsb)
  | fuel + 1, bsb, buf =>
    if !bsb.PosAtEnd then
      Bytes.loop fuel bsb.readByte.2 (buf ++ [bsb.readByte.1])
    else
      some (buf, bsb)

/-- The method `Bytes`: the bytes and the buffer afterwards; the deferred
function puts the saved cursor back. -/
def Bytes (bsb : BitSetBuffer) : Option (List Nat × BitSetBuffer) :=
  let old := bsb.pos
  match Bytes.loop (bsb.Set.length + 1) bsb.ResetToStart [] with
  | none => none
  | some (buf, bsb) => some (buf, { bsb with pos := old })

end BitSetBuffer

open BitSetBuffer

/-- The function `NewFromBytes`: the buffer (`none` for the `nil` pointer) and
the error.  The deferred function sets the cursor to `0`. -/
def NewFromBytes (bytes : List Nat) : Option BitSetBuffer × Option GoError :=
  let r := BitSetBuffer.empty.Write bytes
  match r.1.2 with
  | some err => (none, some err)
  | none =>
    if r.1.1 ≠ bytes.length then
      (none, some (GoError.expectedToStore bytes.length r.1.1))
    else
      (some { r.2 with pos := 0 }, none)

/-- The function `NewFromBits`. -/
def NewFromBits (bits : List Bool) : Option BitSetBuffer × Option GoError :=
  let r := BitSetBuffer.empty.WriteBits bits
  match r.1.2 with
  | some err => (none, some err)
  | none =>
    if r.1.1 ≠ bits.length then
      (none, some (GoError.expectedToStore bits.length r.1.1))
    else
      (some { r.2 with pos := 0 }, none)

/-- The inner loop of both transforms,
`for j := 0; j < count; j++ { result[offset+j] = bytes[start+j] }`;
`none` when an index is out of range. -/
def copyBits (bytes result : List Bool) (start offset count : Nat) : Option (List Bool) :=
  (List.range count).foldlM (fun (result : List Bool) j =>
    match bytes[start + j]? with
    | none => none
    | some b => if offset + j < result.length then some (result.set (offset + j) b) else none) result

/-- The outer loop of `byteSwapBitsToBig`, `start` going up in steps of 8.  It
is given fuel and is `none` when the fuel is used up while `start < lenBytes`.
`end` is at most `lenBytes`, so `lenBytes - end` is not negative. -/
def byteSwapBitsToBig.loop (bytes : List Bool) : Nat → Nat → List Bool → Option (List Bool)
  | 0, start, result => if start < bytes.length then none else some result
  | fuel + 1, start, result =>
    if start < bytes.length then
      let end_ := if start + 8 ≥ bytes.length then bytes.length else start + 8
      let offset := bytes.length - end_
      match copyBits bytes result start offset (end_ - start) with
      | none => none
      | some result => byteSwapBitsToBig.loop bytes fuel (start + 8) result
    else
      some result

def byteSwapBitsToBig (bytes : List Bool) : Option (List Bool) :=
  byteSwapBitsToBig.loop bytes bytes.length 0 (List.replicate bytes.length false)

/-- The body of the outer loop of `byteSwapBitsFromBig` at index `i`.  `end`
and `start` are integers: `end` is negative once `i*8` is past the length, and
the inner loop then does not run. -/
def byteSwapBitsFromBig.body (bytes result : List Bool) (i : Nat) : Option (List Bool) :=
  let end_ : Int := (bytes.length : Int) - (i : Int) * 8
  let start : Int := if end_ - 8 < 0 then 0 else end_ - 8
  let offset : Nat := i * 8
  copyBits bytes result start.toNat offset (end_ - start).toNat

def byteSwapBitsFromBig (bytes : List Bool) : Option (List Bool) :=
  (List.range bytes.length).foldlM (byteSwapBitsFromBig.body bytes)
    (List.replicate bytes.length false)

/-- The function `WriteUint` on a `BitSetBuffer`: the error and the buffer
afterwards. -/
def WriteUint (buf : BitSetBuffer) (numOfBits : Nat) (endianness : ByteOrder) (value : Nat) :
    Option (Option GoError × BitSetBuffer) :=
  let intBits := (List.range numOfBits).foldl
    (fun (intBits : List Bool) i => intBits.set i (decide (value &&& ((1 <<< i) % 2 ^ 64) > 0)))
    (List.replicate numOfBits false)
  match (if endianness = ByteOrder.BigEndian then byteSwapBitsToBig intBits else some intBits) with
  | none => none
  | some intBits =>
    let r := buf.WriteBits intBits
    match r.1.2 with
    | some err => some (some err, r.2)
    | none =>
      if r.1.1 ≠ numOfBits then
        some (some (GoError.onlyBitsWritten r.1.1 numOfBits), r.2)
      else
        some (none, r.2)

/-- The function `ReadUint` on a `BitSetBuffer`: the value and error, and the
buffer afterwards. -/
def ReadUint (buf : BitSetBuffer) (numOfBits : Nat) (endianness : ByteOrder) :
    Option ((Nat × Option GoError) × BitSetBuffer) :=
  let r := buf.ReadBits (some (List.replicate numOfBits false))
  match r.1.2 with
  | some err => some ((0, some err), r.2.2)
  | none =>
    if r.1.1 ≠ numOfBits then
      some ((0, some (GoError.onlyBitsRead r.1.1 numOfBits)), r.2.2)
    else
      match (if endianness = ByteOrder.BigEndian then byteSwapBitsFromBig r.2.1 else some r.2.1) with
      | none => none
      | some intBits =>
        match (List.range numOfBits).foldlM (fun (value : Nat) i =>
            match intBits[i]? with
            | none => none
            | some bit => some (if bit then (value + (1 <<< i) % 2 ^ 64) % 2 ^ 64 else value)) 0 with
        | none => none
        | some value => some ((value, none), r.2.2)

/-- Conversion of an integer to `int64`: the value in `[-2 ^ 63, 2 ^ 63)` that is
congruent to it modulo `2 ^ 64`. -/
def wrapInt64 (x : Int) : Int :=
  (x + 2 ^ 63) % 2 ^ 64 - 2 ^ 63

/-- The function `WriteInt` on a `BitSetBuffer`: the error and the buffer
afterwards.  `1 << i` is `2 ^ i` converted to `int64`; the assignment to
`intBits[len(intBits)-1]` is out of range when the slice is empty. -/
def WriteInt (buf : BitSetBuffer) (numOfBits : Nat) (endianness : ByteOrder) (value : Int) :
    Option (Option GoError × BitSetBuffer) :=
  let intBits := (List.range (numOfBits - 1)).foldl
    (fun (intBits : List Bool) i =>
      intBits.set i (decide (Int.land value (wrapInt64 (2 ^ i)) > 0)))
    (List.replicate numOfBits false)
  if intBits.length = 0 then
    none
  else
    let intBits := intBits.set (intBits.length - 1) (decide (value < 0))
    match (if endianness = ByteOrder.BigEndian then byteSwapBitsToBig intBits else some intBits) with
    | none => none
    | some intBits =>
      let r := buf.WriteBits intBits
      match r.1.2 with
      | some err => some (some err, r.2)
      | none =>
        if r.1.1 ≠ numOfBits then
          some (some (GoError.onlyBitsWritten r.1.1 numOfBits), r.2)
        else
          some (none, r.2)

/-- The function `ReadInt` on a `BitSetBuffer`: the value and error, and the
buffer afterwards.  The index `numOfBits-1` is out of range when `numOfBits`
is `0`. -/
def ReadInt (buf : BitSetBuffer) (numOfBits : Nat) (endianness : ByteOrder) :
    Option ((Int × Option GoError) × BitSetBuffer) :=
  let r := buf.ReadBits (some (List.replicate numOfBits false))
  match r.1.2 with
  | some err => some ((0, some err), r.2.2)
  | none =>
    if r.1.1 ≠ numOfBits then
      some ((0, some (GoError.onlyBitsRead r.1.1 numOfBits)), r.2.2)
    else
      match (if endianness = ByteOrder.BigEndian then byteSwapBitsFromBig r.2.1 else some r.2.1) with
      | none => none
      | some intBits =>
        match (if numOfBits = 0 then none else intBits[numOfBits - 1]?) with
        | none => none
        | some top =>
          match (List.range (numOfBits - 1)).foldlM (fun (value : Int) i =>
              match intBits[i]? with
              | none => none
              | some bit =>
                let cleared := Int.land value (Int.lnot (wrapInt64 (2 ^ i)))
                some (if bit then Int.lor cleared (wrapInt64 (2 ^ i)) else cleared))
              (if top then wrapInt64 (0 - 1) else 0) with
          | none => none
          | some value => some ((value, none), r.2.2)

/-! ## Definitions used to state the properties -/

/-- The index of the input bit that `byteSwapBitsToBig` puts at output index
`q`, for an input of length `len`: with `i = (len - 1 - q) / 8` the chunk,
`8 * i + (q - (len - min (8 * i + 8) len))`. -/
def toBigSource (len q : Nat) : Nat :=
  8 * ((len - 1 - q) / 8) + (q - (len - Nat.min (8 * ((len - 1 - q) / 8) + 8) len))

/-- The index of the input bit that `byteSwapBitsFromBig` puts at output index
`p`, for an input of length `len`: with `i = p / 8`,
`max (len - 8 * i - 8) 0 + (p - 8 * i)`. -/
def fromBigSource (len p : Nat) : Nat :=
  (len - 8 * (p / 8) - 8) + (p - 8 * (p / 8))

/-- Bit `i` of the number `v`, `(v >> i) & 1`, as a boolean. -/
def bitOf (v i : Nat) : Bool :=
  decide ((v >>> i) &&& 1 = 1)

/-- The 8 bits of a byte, least-significant first. -/
def byteBits (b : Nat) : List Bool :=
  (List.range 8).map (bitOf b)

/-- The bits of a byte sequence: the 8 bits of each byte, least-significant
first, in the order of the bytes. -/
def expand : List Nat → List Bool
  | [] => []
  | b :: bs => byteBits b ++ expand bs

/-- The stored bit at index `q`, read as `false` at or beyond the length. -/
def bitAt (S : List Bool) (q : Nat) : Bool :=
  (S[q]?).getD false

/-- The byte that `readByte` returns when the cursor is at `p`. -/
def byteAt (S : List Bool) (p : Nat) : Nat :=
  (BitSetBuffer.readByte { pos := p, Set := S }).1

/-- The `w` low bits of the number `v`, least-significant first. -/
def uintBits (w v : Nat) : List Bool :=
  (List.range w).map (bitOf v)

/-- Calls `WriteUint` on each pair of a width and a value, in order, with the
same byte order; the errors returned and the buffer afterwards. -/
def writeUints (e : ByteOrder) : List (Nat × Nat) → BitSetBuffer →
    Option (List (Option GoError) × BitSetBuffer)
  | [], buf => some ([], buf)
  | pr :: rest, buf =>
    match WriteUint buf pr.1 e pr.2 with
    | none => none
    | some r =>
      match writeUints e rest r.2 with
      | none => none
      | some rs => some (r.1 :: rs.1, rs.2)

/-- Calls `ReadUint` on each width, in order, with the same byte order; the
values and errors returned and the buffer afterwards. -/
def readUints (e : ByteOrder) : List Nat → BitSetBuffer →
    Option (List (Nat × Option GoError) × BitSetBuffer)
  | [], buf => some ([], buf)
  | w :: rest, buf =>
    match ReadUint buf w e with
    | none => none
    | some r =>
      match readUints e rest r.2 with
      | none => none
      | some rs => some (r.1 :: rs.1, rs.2)

/-- The bits that a sequence of unsigned writes puts on the wire: for each
pair of a width and a value the low bits of the value, transformed when the
byte order is big-endian. -/
def wireUints (e : ByteOrder) : List (Nat × Nat) → Option (List Bool)
  | [] => some []
  | pr :: rest =>
    match (if e = ByteOrder.BigEndian then byteSwapBitsToBig (uintBits pr.1 pr.2)
      else some (uintBits pr.1 pr.2)) with
    | none => none
    | some enc =>
      match wireUints e rest with
      | none => none
      | some tl => some (enc ++ tl)

/-- The `w` bits that hold the signed value `v`: bits `0 .. w-2` of `v` and
then the sign flag `v < 0`. -/
def sintBits (w : Nat) (v : Int) : List Bool :=
  (List.range (w - 1)).map (fun i => v.testBit i) ++ [decide (v < 0)]

/-- The public operations on a `BitSetBuffer`, with their arguments. -/
inductive Op where
  | WriteBit (bit : Bool)
  | WriteBits (bits : List Bool)
  | Write (bytes : List Nat)
  | ReadBit
  | ReadBits (bits : Option (List Bool))
  | Read (bytes : Option (List Nat))
  | ResetToStart
  | ResetToEnd
  | PosAtEnd
  | Bytes

/-- The buffer after a public operation; `none` when the operation does not
return.  `PosAtEnd` only reports and leaves the buffer. -/
def step (bsb : BitSetBuffer) : Op → Option BitSetBuffer
  | Op.WriteBit bit => some (bsb.WriteBit bit)
  | Op.WriteBits bits => some (bsb.WriteBits bits).2
  | Op.Write bytes => some (bsb.Write bytes).2
  | Op.ReadBit => some bsb.ReadBit.2
  | Op.ReadBits bits => some (bsb.ReadBits bits).2.2
  | Op.Read bytes => some (bsb.Read bytes).2.2
  | Op.ResetToStart => some bsb.ResetToStart
  | Op.ResetToEnd => some bsb.ResetToEnd
  | Op.PosAtEnd => some bsb
  | Op.Bytes => bsb.Bytes.map Prod.snd

/-- The states reachable from the empty buffer or from a buffer returned by
`NewFromBytes` or `NewFromBits`, by public operations. -/
inductive Reachable : BitSetBuffer → Prop where
  | empty : Reachable BitSetBuffer.empty
  | fromBytes (bytes : List Nat) (buf : BitSetBuffer) :
      (NewFromBytes bytes).1 = some buf → Reachable buf
  | fromBits (bits : List Bool) (buf : BitSetBuffer) :
      (NewFromBits bits).1 = some buf → Reachable buf
  | step (s : BitSetBuffer) (op : Op) (t : BitSetBuffer) :
      Reachable s → step s op = some t → Reachable t

/-- The recursion of `reverseChunks`, with fuel: a sequence of at most 8 bits
is left as it is, otherwise the first 8 bits go behind the reversed chunks of
the rest. -/
def reverseChunks.go : Nat → List Bool → List Bool
  | 0, x => x
  | fuel + 1, x =>
    if x.length ≤ 8 then x else reverseChunks.go fuel (x.drop 8) ++ x.take 8

/-- The concatenation of the 8-bit chunks of a bit sequence in reverse order,
each chunk in its own order; the last chunk, which may be short, comes
first. -/
def reverseChunks (x : List Bool) : List Bool :=
  reverseChunks.go x.length x

/-- The low `w` bits of the two's-complement representation of the `int64`
value `v`, least-significant first: the low bits of `v` modulo `2 ^ 64`. -/
def twosComplementBits (w : Nat) (v : Int) : List Bool :=
  uintBits w (v % 2 ^ 64).toNat

/-- The bits in the store after `WriteInt` of `v` with width `w`, little-endian,
on the empty buffer; `none` when `WriteInt` does not return. -/
def writtenIntBits (w : Nat) (v : Int) : Option (List Bool) :=
  (WriteInt BitSetBuffer.empty w ByteOrder.LittleEndian v).map (fun r => r.2.Set)

/-! ## The endianness transform -/

theorem copyBits_spec (bytes : List Bool) (start offset : Nat) :
    ∀ (count : Nat) (result : List Bool), (0 < count → start + count ≤ bytes.length) →
      (0 < count → offset + count ≤ result.length) →
      ∃ r, copyBits bytes result start offset count = some r ∧ r.length = result.length ∧
        ∀ q, r[q]? = if offset ≤ q ∧ q < offset + count then bytes[start + (q - offset)]?
          else result[q]? := by
  intro count
  induction count with
  | zero =>
    intro result _ _
    refine ⟨result, by simp [copyBits], rfl, ?_⟩
    intro q
    rw [if_neg (by omega)]
  | succ n ih =>
    intro result h1 h2
    obtain ⟨r, hr, hlen, hget⟩ := ih result (by omega) (by omega)
    have hb : start + n < bytes.length := by omega
    have ho : offset + n < r.length := by omega
    refine ⟨r.set (offset + n) bytes[start + n], ?_, by simp [hlen], ?_⟩
    · unfold copyBits at hr ⊢
      rw [List.range_succ, List.foldlM_append, hr]
      simp [List.getElem?_eq_getElem hb, ho]
    · intro q
      rw [List.getElem?_set, hget q]
      by_cases hq : offset + n = q
      · subst hq
        rw [if_pos rfl, if_pos ho, if_pos (by omega), ← List.getElem?_eq_getElem hb]
        congr 1
        omega
      · rw [if_neg hq]
        by_cases h3 : offset ≤ q ∧ q < offset + n
        · rw [if_pos h3, if_pos (by omega)]
        · rw [if_neg h3, if_neg (by omega)]

theorem byteSwapBitsToBig_loop_spec (bytes : List Bool) :
    ∀ (fuel k : Nat) (result : List Bool), bytes.length ≤ 8 * k + fuel →
      result.length = bytes.length →
      ∃ r, byteSwapBitsToBig.loop bytes fuel (8 * k) result = some r ∧
        r.length = bytes.length ∧
        ∀ q, r[q]? = if q < bytes.length - 8 * k then bytes[toBigSource bytes.length q]?
          else result[q]? := by
  intro fuel
  induction fuel with
  | zero =>
    intro k result hf hlen
    refine ⟨result, ?_, hlen, ?_⟩
    · simp only [byteSwapBitsToBig.loop]
      rw [if_neg (by omega)]
    · intro q
      rw [if_neg (by omega)]
  | succ fuel ih =>
    intro k result hf hlen
    by_cases hs : 8 * k < bytes.length
    · simp only [byteSwapBitsToBig.loop]
      rw [if_pos hs]
      by_cases he : 8 * k + 8 ≥ bytes.length
      · simp only [if_pos he]
        obtain ⟨r1, hr1, hlen1, hget1⟩ := copyBits_spec bytes (8 * k)
          (bytes.length - bytes.length) (bytes.length - 8 * k) result (by omega) (by omega)
        rw [hr1]
        obtain ⟨r, hr, hlen2, hget⟩ := ih (k + 1) r1 (by omega) (by omega)
        refine ⟨r, hr, hlen2, ?_⟩
        intro q
        rw [hget q, if_neg (by omega), hget1 q]
        by_cases hq : q < bytes.length - 8 * k
        · rw [if_pos hq, if_pos (by omega)]
          congr 1
          unfold toBigSource
          simp only [Nat.min_def]
          split <;> omega
        · rw [if_neg hq, if_neg (by omega)]
      · simp only [if_neg he]
        obtain ⟨r1, hr1, hlen1, hget1⟩ := copyBits_spec bytes (8 * k)
          (bytes.length - (8 * k + 8)) (8 * k + 8 - 8 * k) result (by omega) (by omega)
        rw [hr1]
        obtain ⟨r, hr, hlen2, hget⟩ := ih (k + 1) r1 (by omega) (by omega)
        refine ⟨r, hr, hlen2, ?_⟩
        intro q
        rw [hget q, hget1 q]
        by_cases hq : q < bytes.length - 8 * (k + 1)
        · rw [if_pos hq, if_pos (by omega)]
        · rw [if_neg hq]
          by_cases hq2 : q < bytes.length - 8 * k
          · rw [if_pos hq2, if_pos (by omega)]
            congr 1
            unfold toBigSource
            simp only [Nat.min_def]
            split <;> omega
          · rw [if_neg hq2, if_neg (by omega)]
    · refine ⟨result, ?_, hlen, ?_⟩
      · simp only [byteSwapBitsToBig.loop]
        rw [if_neg hs]
      · intro q
        rw [if_neg (by omega)]

/-- The forward transform returns, has the length of its input, and its bit
`q` is the input's bit `toBigSource len q`. -/
theorem byteSwapBitsToBig_spec (bytes : List Bool) :
    ∃ r, byteSwapBitsToBig bytes = some r ∧ r.length = bytes.length ∧
      ∀ q, q < bytes.length → r[q]? = bytes[toBigSource bytes.length q]? := by
  obtain ⟨r, hr, hlen, hget⟩ := byteSwapBitsToBig_loop_spec bytes bytes.length 0
    (List.replicate bytes.length false) (by omega) (by simp)
  refine ⟨r, hr, hlen, ?_⟩
  intro q hq
  rw [hget q, if_pos (by omega)]

theorem byteSwapBitsFromBig_body_spec (bytes result : List Bool) (i : Nat)
    (hlen : result.length = bytes.length) :
    ∃ r, byteSwapBitsFromBig.body bytes result i = some r ∧ r.length = bytes.length ∧
      ∀ p, r[p]? = if 8 * i ≤ p ∧ p < 8 * i + 8 ∧ p < bytes.length
        then bytes[fromBigSource bytes.length p]? else result[p]? := by
  unfold byteSwapBitsFromBig.body
  simp only
  by_cases h8 : (bytes.length : Int) - (i : Int) * 8 - 8 < 0
  · rw [if_pos h8]
    obtain ⟨r, hr, hl, hget⟩ := copyBits_spec bytes (0 : Int).toNat (i * 8)
      ((bytes.length : Int) - (i : Int) * 8 - 0).toNat result (by omega) (by omega)
    refine ⟨r, hr, by omega, ?_⟩
    intro p
    rw [hget p]
    by_cases hp : 8 * i ≤ p ∧ p < 8 * i + 8 ∧ p < bytes.length
    · rw [if_pos hp, if_pos (by omega)]
      congr 1
      unfold fromBigSource
      omega
    · rw [if_neg hp, if_neg (by omega)]
  · rw [if_neg h8]
    obtain ⟨r, hr, hl, hget⟩ := copyBits_spec bytes ((bytes.length : Int) - (i : Int) * 8 - 8).toNat
      (i * 8) ((bytes.length : Int) - (i : Int) * 8 - ((bytes.length : Int) - (i : Int) * 8 - 8)).toNat
      result (by omega) (by omega)
    refine ⟨r, hr, by omega, ?_⟩
    intro p
    rw [hget p]
    by_cases hp : 8 * i ≤ p ∧ p < 8 * i + 8 ∧ p < bytes.length
    · rw [if_pos hp, if_pos (by omega)]
      congr 1
      unfold fromBigSource
      omega
    · rw [if_neg hp, if_neg (by omega)]

theorem byteSwapBitsFromBig_fold_spec (bytes init : List Bool)
    (hinit : init.length = bytes.length) :
    ∀ n, ∃ r, (List.range n).foldlM (byteSwapBitsFromBig.body bytes) init = some r ∧
      r.length = bytes.length ∧
      ∀ p, r[p]? = if p < 8 * n ∧ p < bytes.length
        then bytes[fromBigSource bytes.length p]? else init[p]? := by
  intro n
  induction n with
  | zero =>
    refine ⟨init, by simp, hinit, ?_⟩
    intro p
    rw [if_neg (by omega)]
  | succ n ih =>
    obtain ⟨r1, hr1, hl1, hget1⟩ := ih
    obtain ⟨r, hr, hl, hget⟩ := byteSwapBitsFromBig_body_spec bytes r1 n hl1
    refine ⟨r, ?_, hl, ?_⟩
    · rw [List.range_succ, List.foldlM_append, hr1]
      simpa using hr
    · intro p
      rw [hget p, hget1 p]
      by_cases hp : 8 * n ≤ p ∧ p < 8 * n + 8 ∧ p < bytes.length
      · rw [if_pos hp, if_pos (by omega)]
      · rw [if_neg hp]
        by_cases hp2 : p < 8 * n ∧ p < bytes.length
        · rw [if_pos hp2, if_pos (by omega)]
        · rw [if_neg hp2, if_neg (by omega)]

/-- The inverse transform returns, has the length of its input, and its bit
`p` is the input's bit `fromBigSource len p`. -/
theorem byteSwapBitsFromBig_spec (bytes : List Bool) :
    ∃ r, byteSwapBitsFromBig bytes = some r ∧ r.length = bytes.length ∧
      ∀ p, p < bytes.length → r[p]? = bytes[fromBigSource bytes.length p]? := by
  obtain ⟨r, hr, hlen, hget⟩ := byteSwapBitsFromBig_fold_spec bytes
    (List.replicate bytes.length false) (by simp) bytes.length
  refine ⟨r, hr, hlen, ?_⟩
  intro p hp
  rw [hget p, if_pos (by omega)]

theorem toBigSource_fromBigSource (len p : Nat) (hp : p < len) :
    fromBigSource len p < len ∧ toBigSource len (fromBigSource len p) = p := by
  unfold toBigSource fromBigSource
  simp only [Nat.min_def]
  constructor
  · omega
  · split <;> omega

/-- The inverse transform undoes the forward transform. -/
theorem byteSwapBitsFromBig_toBig (x y : List Bool) (hy : byteSwapBitsToBig x = some y) :
    byteSwapBitsFromBig y = some x := by
  obtain ⟨r, hr, hlen, hget⟩ := byteSwapBitsToBig_spec x
  rw [hr] at hy
  have hry : r = y := Option.some.inj hy
  rw [hry] at hlen hget
  obtain ⟨r2, hr2, hlen2, hget2⟩ := byteSwapBitsFromBig_spec y
  rw [hr2]
  congr 1
  apply List.ext_getElem?
  intro p
  by_cases hp : p < x.length
  · have h := toBigSource_fromBigSource x.length p hp
    rw [hget2 p (by omega), hlen, hget _ h.1, h.2]
  · rw [List.getElem?_eq_none (by omega), List.getElem?_eq_none (by omega)]

/-! ## The bit store -/

theorem WriteBit_spec (bsb : BitSetBuffer) (bit : Bool) (hp : bsb.pos ≤ bsb.Set.length) :
    bsb.WriteBit bit =
      { pos := bsb.pos + 1, Set := bsb.Set.take bsb.pos ++ bit :: bsb.Set.drop (bsb.pos + 1) } := by
  unfold WriteBit
  by_cases h : bsb.pos < bsb.Set.length
  · rw [if_pos h, List.set_eq_take_append_cons_drop, if_pos h]
  · rw [if_neg h]
    have h1 : bsb.Set.take bsb.pos = bsb.Set := List.take_of_length_le (by omega)
    have h2 : bsb.Set.drop (bsb.pos + 1) = [] := List.drop_of_length_le (by omega)
    rw [h1, h2]

theorem overwrite_cons {α : Type} (S : List α) (p : Nat) (b : α) (bs : List α)
    (hp : p ≤ S.length) :
    (S.take p ++ b :: S.drop (p + 1)).take (p + 1) ++ bs ++
      (S.take p ++ b :: S.drop (p + 1)).drop (p + 1 + bs.length) =
    S.take p ++ (b :: bs) ++ S.drop (p + (bs.length + 1)) := by
  have hl : (S.take p).length = p := by simp [hp]
  have e : S.take p ++ b :: S.drop (p + 1) = (S.take p ++ [b]) ++ S.drop (p + 1) := by simp
  have hl2 : (S.take p ++ [b]).length = p + 1 := by simp [hp]
  rw [e, List.take_left' hl2, List.drop_append_eq_append_drop, hl2,
    List.drop_of_length_le (by omega), List.drop_drop]
  have e2 : p + 1 + bs.length - (p + 1) + (p + 1) = p + (bs.length + 1) := by omega
  simp [e2]
  congr 1
  omega

theorem WriteBits_fold_spec :
    ∀ (bits : List Bool) (c : Nat) (bsb : BitSetBuffer), bsb.pos ≤ bsb.Set.length →
      bits.foldl (fun (acc : Nat × BitSetBuffer) bit => (acc.1 + 1, acc.2.WriteBit bit)) (c, bsb) =
        (c + bits.length,
          { pos := bsb.pos + bits.length
            Set := bsb.Set.take bsb.pos ++ bits ++ bsb.Set.drop (bsb.pos + bits.length) }) := by
  intro bits
  induction bits with
  | nil =>
    intro c bsb _
    simp
  | cons b bs ih =>
    intro c bsb hp
    rw [List.foldl_cons]
    simp only [WriteBit_spec bsb b hp]
    rw [ih]
    · simp only [overwrite_cons bsb.Set bsb.pos b bs hp, List.length_cons]
      have e1 : c + 1 + bs.length = c + (bs.length + 1) := by omega
      have e2 : bsb.pos + 1 + bs.length = bsb.pos + (bs.length + 1) := by omega
      rw [e1, e2]
    · simp only [List.length_append, List.length_take, List.length_cons, List.length_drop]
      omega

/-- What `WriteBits` does to a buffer whose cursor is inside the store. -/
theorem WriteBits_spec (bsb : BitSetBuffer) (bits : List Bool) (hp : bsb.pos ≤ bsb.Set.length) :
    bsb.WriteBits bits = ((bits.length, none),
      { pos := bsb.pos + bits.length
        Set := bsb.Set.take bsb.pos ++ bits ++ bsb.Set.drop (bsb.pos + bits.length) }) := by
  unfold WriteBits
  simp only [WriteBits_fold_spec bits 0 bsb hp, Nat.zero_add]

/-! ## Bits of numbers -/

theorem bitOf_eq_testBit (v i : Nat) : bitOf v i = v.testBit i := by
  unfold bitOf
  rw [Nat.testBit_to_div_mod, Nat.shiftRight_eq_div_pow, Nat.and_one_is_mod]

theorem and_two_pow_pos (v i : Nat) : decide (v &&& 2 ^ i > 0) = v.testBit i := by
  cases h : v.testBit i with
  | true =>
    have e : v &&& 2 ^ i = 2 ^ i := by
      apply Nat.eq_of_testBit_eq
      intro j
      rw [Nat.testBit_and, Nat.testBit_two_pow]
      by_cases hj : i = j
      · subst hj
        simp [h]
      · simp [hj]
    rw [e]
    simp
  | false =>
    have e : v &&& 2 ^ i = 0 := by
      apply Nat.eq_of_testBit_eq
      intro j
      rw [Nat.testBit_and, Nat.testBit_two_pow]
      by_cases hj : i = j
      · subst hj
        simp [h]
      · simp [hj]
    rw [e]
    simp

theorem one_shiftLeft_mod (i w : Nat) (hi : i < w) : (1 <<< i) % 2 ^ w = 2 ^ i := by
  rw [Nat.one_shiftLeft]
  exact Nat.mod_eq_of_lt (Nat.pow_lt_pow_right (by omega) hi)

theorem byte_mask_pos (b i : Nat) (hi : i < 8) :
    decide (b &&& ((1 <<< i) % 256) > 0) = bitOf b i := by
  have h := one_shiftLeft_mod i 8 hi
  norm_num at h
  rw [h, and_two_pow_pos, bitOf_eq_testBit]

/-! ## The byte writer -/

theorem WriteBits_fold_snd :
    ∀ (bits : List Bool) (c : Nat) (bsb : BitSetBuffer),
      bits.foldl (fun (acc : Nat × BitSetBuffer) bit => (acc.1 + 1, acc.2.WriteBit bit)) (c, bsb) =
        (c + bits.length, bits.foldl WriteBit bsb) := by
  intro bits
  induction bits with
  | nil => intro c bsb; rfl
  | cons b bs ih =>
    intro c bsb
    rw [List.foldl_cons, List.foldl_cons, ih, List.length_cons]
    congr 1
    omega

theorem WriteBits_eq_foldl (bsb : BitSetBuffer) (bits : List Bool) :
    bsb.WriteBits bits = ((bits.length, none), bits.foldl WriteBit bsb) := by
  unfold WriteBits
  simp only [WriteBits_fold_snd, Nat.zero_add]

theorem writeByte_fold_eq (b : Nat) :
    ∀ (l : List Nat) (bsb : BitSetBuffer), (∀ i ∈ l, i < 8) →
      l.foldl (fun (bsb : BitSetBuffer) i =>
        let value := decide (b &&& ((1 <<< i) % 256) > 0)
        if bsb.pos < bsb.Set.length then
          { pos := bsb.pos + 1, Set := bsb.Set.set bsb.pos value }
        else
          { pos := bsb.pos + 1, Set := bsb.Set ++ [value] }) bsb =
      l.foldl (fun (bsb : BitSetBuffer) i => bsb.WriteBit (bitOf b i)) bsb := by
  intro l
  induction l with
  | nil => intro bsb _; rfl
  | cons i l ih =>
    intro bsb h
    rw [List.foldl_cons, List.foldl_cons, ih _ (fun j hj => h j (List.mem_cons_of_mem _ hj))]
    simp only [byte_mask_pos b i (h i (List.mem_cons_self _ _)), WriteBit]

theorem writeByte_eq_foldl (bsb : BitSetBuffer) (b : Nat) :
    bsb.writeByte b = (byteBits b).foldl WriteBit bsb := by
  unfold writeByte byteBits
  rw [List.foldl_map]
  exact writeByte_fold_eq b (List.range 8) bsb (fun i hi => List.mem_range.mp hi)

theorem Write_fold_spec :
    ∀ (bytes : List Nat) (c : Nat) (bsb : BitSetBuffer),
      bytes.foldl (fun (acc : Nat × BitSetBuffer) b => (acc.1 + 1, acc.2.writeByte b)) (c, bsb) =
        (c + bytes.length, (expand bytes).foldl WriteBit bsb) := by
  intro bytes
  induction bytes with
  | nil => intro c bsb; rfl
  | cons b bs ih =>
    intro c bsb
    rw [List.foldl_cons, ih, List.length_cons, expand, List.foldl_append, writeByte_eq_foldl]
    congr 1
    omega

/-- The byte writer is the bit writer on the expanded bytes. -/
theorem Write_eq_WriteBits (bsb : BitSetBuffer) (bytes : List Nat) :
    bsb.Write bytes = ((bytes.length, none), (bsb.WriteBits (expand bytes)).2) := by
  rw [WriteBits_eq_foldl]
  unfold Write
  simp only [Write_fold_spec, Nat.zero_add]

theorem length_byteBits (b : Nat) : (byteBits b).length = 8 := by
  simp [byteBits]

theorem getElem?_byteBits (b i : Nat) (hi : i < 8) : (byteBits b)[i]? = some (bitOf b i) := by
  unfold byteBits
  rw [List.getElem?_map, List.getElem?_range hi]
  rfl

theorem length_expand (bytes : List Nat) : (expand bytes).length = 8 * bytes.length := by
  induction bytes with
  | nil => rfl
  | cons b bs ih =>
    rw [expand, List.length_append, length_byteBits, ih, List.length_cons]
    omega

theorem getElem?_expand :
    ∀ (bytes : List Nat) (k i : Nat), i < 8 →
      (expand bytes)[8 * k + i]? = (bytes[k]?).map (fun b => bitOf b i) := by
  intro bytes
  induction bytes with
  | nil => intro k i _; simp [expand]
  | cons b bs ih =>
    intro k i hi
    rw [expand]
    cases k with
    | zero =>
      rw [List.getElem?_append_left (by rw [length_byteBits]; omega)]
      simp [getElem?_byteBits b i hi]
    | succ k =>
      rw [List.getElem?_append_right (by rw [length_byteBits]; omega), length_byteBits]
      have e : 8 * (k + 1) + i - 8 = 8 * k + i := by omega
      rw [e, ih k i hi]
      simp

/-! ## The byte reader -/

theorem min_eq (a b : Nat) : bitsetbuffer.min a b = Nat.min a b := by
  unfold bitsetbuffer.min
  simp only [Nat.min_def]
  split <;> split <;> omega

theorem bitAt_of_le (S : List Bool) (q : Nat) (h : S.length ≤ q) : bitAt S q = false := by
  unfold bitAt
  rw [List.getElem?_eq_none h]
  rfl

theorem bitAt_of_lt (S : List Bool) (q : Nat) (h : q < S.length) : bitAt S q = S[q] := by
  unfold bitAt
  rw [List.getElem?_eq_getElem h]
  rfl

theorem readByte_loop_testBit (bsb : BitSetBuffer) :
    ∀ (k i b : Nat), i + k ≤ 8 → (∀ j, i ≤ j → b.testBit j = false) →
      ∀ j, (readByte.loop bsb k i b).testBit j =
        if j < i then b.testBit j else (decide (j < i + k) && bitAt bsb.Set (j + bsb.pos)) := by
  intro k
  induction k with
  | zero =>
    intro i b _ hb j
    simp only [readByte.loop]
    by_cases hj : j < i
    · rw [if_pos hj]
    · rw [if_neg hj, hb j (by omega)]
      simp
      omega
  | succ k ih =>
    intro i b hik hb j
    simp only [readByte.loop]
    by_cases hend : i + bsb.pos ≥ bsb.Set.length
    · rw [dif_pos hend]
      by_cases hj : j < i
      · rw [if_pos hj]
      · rw [if_neg hj, hb j (by omega), bitAt_of_le _ _ (by omega)]
        simp
    · rw [dif_neg hend]
      have hlt : i + bsb.pos < bsb.Set.length := by omega
      have hmask : (1 <<< i) % 256 = 2 ^ i := by
        have h := one_shiftLeft_mod i 8 (by omega)
        norm_num at h
        exact h
      rw [hmask]
      have hb2 : ∀ j, i + 1 ≤ j →
          (if bsb.Set[i + bsb.pos] = true then b ||| 2 ^ i else b).testBit j = false := by
        intro j hj
        split
        · rw [Nat.testBit_or, hb j (by omega), Nat.testBit_two_pow_of_ne (by omega)]
          rfl
        · exact hb j (by omega)
      rw [ih (i + 1) _ (by omega) hb2 j]
      by_cases hj : j < i
      · rw [if_pos (by omega), if_pos hj]
        split
        · rw [Nat.testBit_or, Nat.testBit_two_pow_of_ne (by omega)]
          simp
        · rfl
      · rw [if_neg hj]
        by_cases hji : j = i
        · subst hji
          rw [if_pos (by omega), bitAt_of_lt _ _ hlt]
          cases hS : bsb.Set[j + bsb.pos] with
          | true => simp [Nat.testBit_or, Nat.testBit_two_pow_self]
          | false => simp [hb j (by omega)]
        · rw [if_neg (by omega)]
          congr 1
          simp
          omega

/-- Bit `j` of the byte read at cursor `p` is stored bit `p + j`, for `j < 8`,
with bits at or beyond the length read as zero. -/
theorem testBit_byteAt (S : List Bool) (p j : Nat) :
    (byteAt S p).testBit j = (decide (j < 8) && bitAt S (p + j)) := by
  unfold byteAt readByte
  simp only
  rw [readByte_loop_testBit _ 8 0 0 (by omega) (fun j _ => Nat.zero_testBit j) j,
    if_neg (by omega), Nat.zero_add, Nat.add_comm]

theorem byteAt_lt (S : List Bool) (p : Nat) : byteAt S p < 256 := by
  have h : byteAt S p < 2 ^ 8 := by
    apply Nat.lt_pow_two_of_testBit
    intro i hi
    rw [testBit_byteAt]
    simp
    omega
  simpa using h

theorem readByte_eq (bsb : BitSetBuffer) :
    bsb.readByte = (byteAt bsb.Set bsb.pos,
      { pos := Nat.min bsb.Set.length (bsb.pos + 8), Set := bsb.Set }) := by
  unfold byteAt readByte
  simp only [min_eq]

theorem Bytes_loop_spec (S : List Bool) :
    ∀ (fuel p : Nat) (buf : List Nat), p ≤ S.length → S.length - p ≤ 8 * fuel →
      Bytes.loop fuel { pos := p, Set := S } buf =
        some (buf ++ (List.range ((S.length - p + 7) / 8)).map (fun m => byteAt S (p + 8 * m)),
          { pos := S.length, Set := S }) := by
  intro fuel
  induction fuel with
  | zero =>
    intro p buf hp hf
    have e : p = S.length := by omega
    subst e
    simp [Bytes.loop, PosAtEnd]
  | succ fuel ih =>
    intro p buf hp hf
    by_cases he : p = S.length
    · subst he
      simp [Bytes.loop, PosAtEnd]
    · simp only [Bytes.loop, PosAtEnd, readByte_eq]
      have hne : (p == S.length) = false := by simpa using he
      simp only [hne, Bool.not_false, if_true]
      rw [ih _ _ (by simp only [Nat.min_def]; split <;> omega)
        (by simp only [Nat.min_def]; split <;> omega)]
      congr 2
      rw [List.append_assoc]
      congr 1
      by_cases h8 : p + 8 ≤ S.length
      · have e1 : Nat.min S.length (p + 8) = p + 8 := by
          simp only [Nat.min_def]; split <;> omega
        have e2 : (S.length - p + 7) / 8 = (S.length - (p + 8) + 7) / 8 + 1 := by omega
        rw [e1, e2, List.range_succ_eq_map, List.map_cons, List.map_map]
        simp only [List.singleton_append, Nat.mul_zero, Nat.add_zero]
        congr 1
        apply List.map_congr_left
        intro m _
        simp only [Function.comp, Nat.succ_eq_add_one]
        congr 1
        omega
      · have e1 : Nat.min S.length (p + 8) = S.length := by
          simp only [Nat.min_def]; split <;> omega
        have e2 : (S.length - p + 7) / 8 = 1 := by omega
        rw [e1, e2]
        simp [List.range_succ]

/-- What `Bytes` returns: it returns, leaves the buffer as it was, and the
byte with index `m` is the byte read at cursor `8 * m`. -/
theorem Bytes_spec (bsb : BitSetBuffer) :
    bsb.Bytes = some ((List.range ((bsb.Set.length + 7) / 8)).map (fun m => byteAt bsb.Set (8 * m)),
      bsb) := by
  unfold Bytes ResetToStart
  simp only
  rw [Bytes_loop_spec bsb.Set (bsb.Set.length + 1) 0 [] (by omega) (by omega)]
  simp

theorem set_overwrite {α : Type} (S : List α) (n : Nat) (b : α) (bs : List α)
    (hn : n < S.length) :
    (S.set n b).take (n + 1) ++ bs ++ (S.set n b).drop (n + 1 + bs.length) =
      S.take n ++ (b :: bs) ++ S.drop (n + (bs.length + 1)) := by
  rw [List.set_eq_take_append_cons_drop, if_pos hn]
  exact overwrite_cons S n b bs (by omega)

theorem bytes_from_cons (S : List Bool) (p c : Nat) (hp : p < S.length)
    (hc : c ≤ (S.length - Nat.min S.length (p + 8) + 7) / 8) :
    byteAt S p :: (List.range c).map (fun m => byteAt S (Nat.min S.length (p + 8) + 8 * m)) =
      (List.range (c + 1)).map (fun m => byteAt S (p + 8 * m)) := by
  rw [List.range_succ_eq_map, List.map_cons, List.map_map]
  simp only [Nat.mul_zero, Nat.add_zero]
  congr 1
  apply List.map_congr_left
  intro m hm
  have hm2 : m < c := List.mem_range.mp hm
  simp only [Function.comp, Nat.succ_eq_add_one]
  congr 1
  simp only [Nat.min_def] at hc ⊢
  split <;> split at hc <;> omega

theorem Read_loop_spec (S : List Bool) :
    ∀ (k n : Nat) (dest : List Nat) (p : Nat), p ≤ S.length → n + k ≤ dest.length →
      Read.loop k n dest { pos := p, Set := S } =
        (n + Nat.min k ((S.length - p + 7) / 8),
          dest.take n ++ (List.range (Nat.min k ((S.length - p + 7) / 8))).map
              (fun m => byteAt S (p + 8 * m)) ++
            dest.drop (n + Nat.min k ((S.length - p + 7) / 8)),
          { pos := Nat.min S.length (p + 8 * k), Set := S }) := by
  intro k
  induction k with
  | zero =>
    intro n dest p hp _
    simp only [Read.loop, Nat.min_def]
    simp
    split <;> omega
  | succ k ih =>
    intro n dest p hp hn
    by_cases he : p = S.length
    · subst he
      have e0 : Nat.min (k + 1) ((S.length - S.length + 7) / 8) = 0 := by
        simp only [Nat.min_def]; split <;> omega
      have e1 : Nat.min S.length (S.length + 8 * (k + 1)) = S.length := by
        simp only [Nat.min_def]; split <;> omega
      rw [e0, e1]
      simp [Read.loop, PosAtEnd]
    · have hne : (p == S.length) = false := by simpa using he
      simp only [Read.loop, PosAtEnd, readByte_eq, hne]
      rw [if_neg (by simp)]
      rw [ih (n + 1) _ _ (by simp only [Nat.min_def]; split <;> omega)
        (by rw [List.length_set]; omega)]
      have hc : Nat.min k ((S.length - Nat.min S.length (p + 8) + 7) / 8) + 1 =
          Nat.min (k + 1) ((S.length - p + 7) / 8) := by
        simp only [Nat.min_def]; split <;> split <;> split <;> omega
      have hpos : Nat.min S.length (Nat.min S.length (p + 8) + 8 * k) =
          Nat.min S.length (p + 8 * (k + 1)) := by
        simp only [Nat.min_def]; split <;> split <;> split <;> omega
      have hlen : ((List.range (Nat.min k ((S.length - Nat.min S.length (p + 8) + 7) / 8))).map
          (fun m => byteAt S (Nat.min S.length (p + 8) + 8 * m))).length =
            Nat.min k ((S.length - Nat.min S.length (p + 8) + 7) / 8) := by simp
      have hso := set_overwrite dest n (byteAt S p)
        ((List.range (Nat.min k ((S.length - Nat.min S.length (p + 8) + 7) / 8))).map
          (fun m => byteAt S (Nat.min S.length (p + 8) + 8 * m))) (by omega)
      rw [hlen] at hso
      rw [hso, bytes_from_cons S p _ (by omega) (Nat.min_le_right _ _), hpos, hc]
      have e3 : n + 1 + Nat.min k ((S.length - Nat.min S.length (p + 8) + 7) / 8) =
          n + Nat.min (k + 1) ((S.length - p + 7) / 8) := by omega
      rw [e3]

theorem ReadBits_loop_spec (S : List Bool) :
    ∀ (k n : Nat) (bits : List Bool) (p : Nat), p ≤ S.length → n + k ≤ bits.length →
      ReadBits.loop k n bits { pos := p, Set := S } =
        (n + Nat.min k (S.length - p),
          bits.take n ++ (S.drop p).take (Nat.min k (S.length - p)) ++
            bits.drop (n + Nat.min k (S.length - p)),
          { pos := p + Nat.min k (S.length - p), Set := S }) := by
  intro k
  induction k with
  | zero =>
    intro n bits p hp _
    simp [ReadBits.loop]
  | succ k ih =>
    intro n bits p hp hn
    by_cases he : p ≥ S.length
    · have e0 : Nat.min (k + 1) (S.length - p) = 0 := by
        simp only [Nat.min_def]; split <;> omega
      rw [e0]
      simp [ReadBits.loop, he]
    · have hlt : p < S.length := by omega
      simp only [ReadBits.loop]
      rw [dif_neg he, ih (n + 1) _ _ (by omega) (by rw [List.length_set]; omega)]
      have hc : Nat.min k (S.length - (p + 1)) + 1 = Nat.min (k + 1) (S.length - p) := by
        simp only [Nat.min_def]; split <;> split <;> omega
      have hlen : ((S.drop (p + 1)).take (Nat.min k (S.length - (p + 1)))).length =
          Nat.min k (S.length - (p + 1)) := by
        rw [List.length_take, List.length_drop]
        simp only [Nat.min_def]
        split <;> first | omega | (split <;> omega)
      have hso := set_overwrite bits n S[p]
        ((S.drop (p + 1)).take (Nat.min k (S.length - (p + 1)))) (by omega)
      rw [hlen] at hso
      have hcons : S[p] :: (S.drop (p + 1)).take (Nat.min k (S.length - (p + 1))) =
          (S.drop p).take (Nat.min k (S.length - (p + 1)) + 1) := by
        rw [List.drop_eq_getElem_cons hlt, List.take_succ_cons]
      rw [hso, hcons, hc]
      have e3 : n + 1 + Nat.min k (S.length - (p + 1)) = n + Nat.min (k + 1) (S.length - p) := by
        omega
      have e4 : p + 1 + Nat.min k (S.length - (p + 1)) = p + Nat.min (k + 1) (S.length - p) := by
        omega
      rw [e3, e4]

theorem NewFromBytes_eq (bs : List Nat) :
    NewFromBytes bs = (some { pos := 0, Set := expand bs }, none) := by
  unfold NewFromBytes
  simp only [Write_eq_WriteBits]
  rw [WriteBits_spec _ _ (by simp [BitSetBuffer.empty])]
  simp [BitSetBuffer.empty]

theorem testBit_of_lt_256 (b j : Nat) (hb : b < 256) (hj : 8 ≤ j) : b.testBit j = false := by
  apply Nat.testBit_lt_two_pow
  calc b < 2 ^ 8 := by simpa using hb
    _ ≤ 2 ^ j := Nat.pow_le_pow_right (by omega) hj

theorem byteAt_expand (bs : List Nat) (m : Nat) (hm : m < bs.length) (hb : bs[m] < 256) :
    byteAt (expand bs) (8 * m) = bs[m] := by
  apply Nat.eq_of_testBit_eq
  intro j
  rw [testBit_byteAt]
  by_cases hj : j < 8
  · unfold bitAt
    rw [getElem?_expand bs m j hj, List.getElem?_eq_getElem hm]
    simp [hj, bitOf_eq_testBit]
  · rw [testBit_of_lt_256 _ _ hb (by omega)]
    simp [hj]

/-! ## The claims about the bit store and the byte adapter -/

/-- C2: on every bit sequence `x`, `byteSwapBitsToBig` returns a sequence of
the length of `x`, `byteSwapBitsFromBig` returns `x` on that sequence, and
`byteSwapBitsFromBig` returns a sequence of the length of `x` on `x` itself. -/
theorem C2_byteSwapBits_round_trip (x : List Bool) :
    (∃ y, byteSwapBitsToBig x = some y ∧ y.length = x.length ∧
      byteSwapBitsFromBig y = some x) ∧
    (∃ z, byteSwapBitsFromBig x = some z ∧ z.length = x.length) := by
  constructor
  · obtain ⟨y, hy, hlen, _⟩ := byteSwapBitsToBig_spec x
    exact ⟨y, hy, hlen, byteSwapBitsFromBig_toBig x y hy⟩
  · obtain ⟨z, hz, hlen, _⟩ := byteSwapBitsFromBig_spec x
    exact ⟨z, hz, hlen⟩

/-- C5: with the cursor `p` inside the store `S`, `WriteBits vs` returns
`(len vs, nil)`, moves the cursor to `p + len vs` and leaves the bits
`S[0..p) ++ vs ++ S[p + len vs ..]`; the new length is
`max (len S) (p + len vs)`, every bit outside `[p, p + len vs)` is unchanged and
bit `p + i` is `vs[i]`. -/
theorem C5_WriteBits_overwrite_or_append (bsb : BitSetBuffer) (vs : List Bool)
    (hp : bsb.pos ≤ bsb.Set.length) :
    (bsb.WriteBits vs).1 = (vs.length, none) ∧
    (bsb.WriteBits vs).2.pos = bsb.pos + vs.length ∧
    (bsb.WriteBits vs).2.Set =
      bsb.Set.take bsb.pos ++ vs ++ bsb.Set.drop (bsb.pos + vs.length) ∧
    (bsb.WriteBits vs).2.Set.length = max bsb.Set.length (bsb.pos + vs.length) ∧
    (∀ q, q < bsb.pos ∨ bsb.pos + vs.length ≤ q →
      (bsb.WriteBits vs).2.Set[q]? = bsb.Set[q]?) ∧
    (∀ i, i < vs.length → (bsb.WriteBits vs).2.Set[bsb.pos + i]? = vs[i]?) := by
  rw [WriteBits_spec bsb vs hp]
  have hl : (bsb.Set.take bsb.pos).length = bsb.pos := by
    rw [List.length_take]
    omega
  refine ⟨rfl, rfl, rfl, ?_, ?_, ?_⟩
  · simp only [List.length_append, List.length_take, List.length_drop]
    omega
  · intro q hq
    simp only
    rcases hq with hq | hq
    · rw [List.append_assoc, List.getElem?_append_left (by omega), List.getElem?_take_of_lt hq]
    · rw [List.getElem?_append_right (by simp only [List.length_append]; omega),
        List.getElem?_drop]
      congr 1
      simp only [List.length_append]
      omega
  · intro i hi
    simp only
    rw [List.append_assoc, List.getElem?_append_right (by omega),
      List.getElem?_append_left (by omega)]
    congr 1
    omega

/-- An instance: three bits written at cursor 1 of a three-bit store. -/
theorem C5_WriteBits_overwrite_or_append_witness :
    (1 : Nat) ≤ [true, true, true].length ∧
    ((BitSetBuffer.mk 1 [true, true, true]).WriteBits [false, false, false]).2.Set =
      [true, false, false, false] :=
  ⟨by decide, (C5_WriteBits_overwrite_or_append (BitSetBuffer.mk 1 [true, true, true])
    [false, false, false] (by decide)).2.2.1⟩

/-- C6: `NewFromBytes bs` returns no error and a buffer with cursor `0` whose
bit sequence has length `8 * len bs`, bit `8 * k + i` being bit `i` of `bs[k]`;
the bytes `0, 1` give eight `false` bits, `true`, and seven `false` bits. -/
theorem C6_NewFromBytes (bs : List Nat) :
    (∃ buf, NewFromBytes bs = (some buf, none) ∧ buf.pos = 0 ∧
      buf.Set.length = 8 * bs.length ∧
      ∀ k i, i < 8 → buf.Set[8 * k + i]? = (bs[k]?).map (fun b => bitOf b i)) ∧
    NewFromBytes [0, 1] = (some (BitSetBuffer.mk 0
      [false, false, false, false, false, false, false, false,
        true, false, false, false, false, false, false, false]), none) := by
  refine ⟨⟨_, NewFromBytes_eq bs, rfl, length_expand bs, ?_⟩, by decide⟩
  intro k i hi
  exact getElem?_expand bs k i hi

/-- C7: `Bytes` returns, leaving the buffer as it was, exactly `ceil(L/8)`
bytes, each below 256, and bit `i` of byte `k` is set exactly when `8 * k + i`
is below `L` and stored bit `8 * k + i` is true; the bits
`0,0,0,0,1,1,1,1,1,1,1,1` give the bytes `0xF0, 0x0F`. -/
theorem C7_Bytes_packing (bsb : BitSetBuffer) :
    (∃ out, bsb.Bytes = some (out, bsb) ∧ out.length = (bsb.Set.length + 7) / 8 ∧
      (∀ b ∈ out, b < 256) ∧
      ∀ k b i, out[k]? = some b → i < 8 →
        (bitOf b i = true ↔ 8 * k + i < bsb.Set.length ∧ bsb.Set[8 * k + i]? = some true)) ∧
    (BitSetBuffer.mk 12 [false, false, false, false, true, true, true, true,
      true, true, true, true]).Bytes =
      some ([0xF0, 0x0F], BitSetBuffer.mk 12 [false, false, false, false, true, true, true, true,
        true, true, true, true]) := by
  refine ⟨⟨_, Bytes_spec bsb, by simp, ?_, ?_⟩, by decide⟩
  · intro b hb
    obtain ⟨m, _, rfl⟩ := List.mem_map.mp hb
    exact byteAt_lt _ _
  · intro k b i hk hi
    rw [List.getElem?_map] at hk
    by_cases hkl : k < (bsb.Set.length + 7) / 8
    · rw [List.getElem?_range hkl] at hk
      have hb : b = byteAt bsb.Set (8 * k) := by simpa using hk.symm
      rw [hb, bitOf_eq_testBit, testBit_byteAt]
      by_cases hq : 8 * k + i < bsb.Set.length
      · rw [bitAt_of_lt _ _ hq, List.getElem?_eq_getElem hq]
        simp [hi, hq]
      · rw [bitAt_of_le _ _ (by omega)]
        simp [hq]
    · rw [List.getElem?_eq_none (by simp; omega)] at hk
      simp at hk

theorem map_byteAt_expand (bs : List Nat) (hb : ∀ b ∈ bs, b < 256) :
    (List.range bs.length).map (fun m => byteAt (expand bs) (0 + 8 * m)) = bs := by
  apply List.ext_getElem?
  intro m
  rw [List.getElem?_map]
  by_cases hm : m < bs.length
  · rw [List.getElem?_range hm, List.getElem?_eq_getElem hm]
    simp only [Option.map_some', Nat.zero_add]
    rw [byteAt_expand bs m hm (hb _ (List.getElem_mem _))]
  · rw [List.getElem?_eq_none (by simp; omega), List.getElem?_eq_none (by omega)]
    rfl

/-- C8: for a non-empty byte sequence `bs`, `NewFromBytes bs` returns a buffer
on which `Read` into a destination of length `len bs` returns `(len bs, nil)`,
fills the destination with exactly `bs` and leaves the cursor at the end of
the store. -/
theorem C8_Read_round_trip (bs dest : List Nat) (hne : bs ≠ []) (hb : ∀ b ∈ bs, b < 256)
    (hd : dest.length = bs.length) :
    ∃ buf, NewFromBytes bs = (some buf, none) ∧
      buf.Read (some dest) = ((bs.length, none), bs,
        { pos := buf.Set.length, Set := buf.Set }) ∧
      (buf.Read (some dest)).2.2.PosAtEnd = true := by
  have hlen : 0 < bs.length := List.length_pos.mpr hne
  have hread : (BitSetBuffer.mk 0 (expand bs)).Read (some dest) =
      ((bs.length, none), bs, { pos := (expand bs).length, Set := expand bs }) := by
    unfold Read
    have hna : (BitSetBuffer.mk 0 (expand bs)).PosAtEnd = false := by
      simp [PosAtEnd, length_expand, hne]
    simp only [hna]
    rw [Read_loop_spec (expand bs) _ 0 dest 0 (by omega) (by omega)]
    have hc : Nat.min dest.length (((expand bs).length - 0 + 7) / 8) = bs.length := by
      rw [length_expand, hd]
      simp only [Nat.min_def]
      split <;> omega
    have hp : Nat.min (expand bs).length (0 + 8 * dest.length) = (expand bs).length := by
      rw [length_expand, hd]
      simp only [Nat.min_def]
      split <;> omega
    rw [hc, hp, map_byteAt_expand bs hb]
    simp [← hd]
  refine ⟨_, NewFromBytes_eq bs, hread, ?_⟩
  rw [hread]
  simp [PosAtEnd]

/-- An instance: the bytes `0, 1` read back into a two-byte destination. -/
theorem C8_Read_round_trip_witness :
    ([0, 1] : List Nat) ≠ [] ∧ (∀ b ∈ ([0, 1] : List Nat), b < 256) ∧
    ([7, 7] : List Nat).length = ([0, 1] : List Nat).length ∧
    ∃ buf, NewFromBytes [0, 1] = (some buf, none) ∧
      buf.Read (some [7, 7]) = ((([0, 1] : List Nat).length, none), [0, 1],
        { pos := buf.Set.length, Set := buf.Set }) ∧
      (buf.Read (some [7, 7])).2.2.PosAtEnd = true :=
  ⟨by decide, by decide, by decide,
    C8_Read_round_trip [0, 1] [7, 7] (by decide) (by decide) (by decide)⟩

/-- C9: `Write bs` returns `(len bs, nil)` and leaves the buffer in the state
that `WriteBits (expand bs)` leaves it in from the same starting state, where
`expand bs` lists the 8 bits of each byte least-significant first; with the
cursor at the end of a store holding the bits `b` the result holds
`b ++ expand bs`. -/
theorem C9_Write_is_WriteBits_of_expand (bsb : BitSetBuffer) (bs : List Nat) :
    (bsb.Write bs).1 = (bs.length, none) ∧
    (bsb.Write bs).2 = (bsb.WriteBits (expand bs)).2 ∧
    (bsb.pos = bsb.Set.length → (bsb.Write bs).2.Set = bsb.Set ++ expand bs) := by
  rw [Write_eq_WriteBits]
  refine ⟨rfl, rfl, ?_⟩
  intro hp
  rw [WriteBits_spec bsb _ (by omega)]
  simp only
  rw [hp, List.take_of_length_le (by omega), List.drop_of_length_le (by omega),
    List.append_nil]

/-- An instance: the byte `0xFF` written at the end of four `false` bits. -/
theorem C9_Write_is_WriteBits_of_expand_witness :
    ((BitSetBuffer.mk 4 [false, false, false, false]).Write [0xFF]).2.Set =
      [false, false, false, false, true, true, true, true, true, true, true, true] :=
  (C9_Write_is_WriteBits_of_expand (BitSetBuffer.mk 4 [false, false, false, false]) [0xFF]).2.2
    (by decide)

/-- C10: with the cursor `p` inside the store `S` of length `L`, `ReadBits` on
a destination `d` that is not `nil` returns the count `n = min (len d) (L - p)`
and no error, sets `d[i] = S[p + i]` for `i < n`, leaves `d[i]` for `i >= n`,
moves the cursor to `p + n` and leaves `S`; on a `nil` destination it returns
the count `0` and an error and leaves the buffer as it was. -/
theorem C10_ReadBits_short_read (bsb : BitSetBuffer) (hp : bsb.pos ≤ bsb.Set.length) :
    (∀ d : List Bool,
      (bsb.ReadBits (some d)).1 = (Nat.min d.length (bsb.Set.length - bsb.pos), none) ∧
      (bsb.ReadBits (some d)).2.2 =
        { pos := bsb.pos + Nat.min d.length (bsb.Set.length - bsb.pos), Set := bsb.Set } ∧
      (bsb.ReadBits (some d)).2.1.length = d.length ∧
      (∀ i, i < Nat.min d.length (bsb.Set.length - bsb.pos) →
        (bsb.ReadBits (some d)).2.1[i]? = bsb.Set[bsb.pos + i]?) ∧
      (∀ i, Nat.min d.length (bsb.Set.length - bsb.pos) ≤ i →
        (bsb.ReadBits (some d)).2.1[i]? = d[i]?)) ∧
    (∃ err, (bsb.ReadBits none).1 = (0, some err)) ∧ (bsb.ReadBits none).2.2 = bsb := by
  refine ⟨?_, ⟨GoError.nilPassedIn, rfl⟩, rfl⟩
  intro d
  unfold ReadBits
  simp only
  have hb : bsb = { pos := bsb.pos, Set := bsb.Set } := rfl
  rw [hb, ReadBits_loop_spec bsb.Set d.length 0 d bsb.pos hp (by omega)]
  simp only [Nat.zero_add, List.take_zero, List.nil_append]
  have hn : Nat.min d.length (bsb.Set.length - bsb.pos) ≤ d.length := Nat.min_le_left _ _
  have hn2 : Nat.min d.length (bsb.Set.length - bsb.pos) ≤ bsb.Set.length - bsb.pos :=
    Nat.min_le_right _ _
  have hl : ((bsb.Set.drop bsb.pos).take (Nat.min d.length (bsb.Set.length - bsb.pos))).length =
      Nat.min d.length (bsb.Set.length - bsb.pos) := by
    rw [List.length_take, List.length_drop]
    omega
  refine ⟨trivial, trivial, ?_, ?_, ?_⟩
  · rw [List.length_append, hl, List.length_drop]
    omega
  · intro i hi
    rw [List.getElem?_append_left (by omega), List.getElem?_take_of_lt hi, List.getElem?_drop]
  · intro i hi
    rw [List.getElem?_append_right (by omega), hl, List.getElem?_drop]
    congr 1
    omega

/-- An instance: one bit is left and the destination has room for two. -/
theorem C10_ReadBits_short_read_witness :
    (2 : Nat) ≤ [true, false, true].length ∧
    ((BitSetBuffer.mk 2 [true, false, true]).ReadBits (some [false, false])).1 = (1, none) :=
  ⟨by decide, ((C10_ReadBits_short_read (BitSetBuffer.mk 2 [true, false, true])
    (by decide)).1 [false, false]).1⟩

/-! ## The unsigned codec -/

theorem fill_spec (f : Nat → Bool) (init : List Bool) :
    ∀ m, m ≤ init.length →
      (List.range m).foldl (fun (l : List Bool) i => l.set i (f i)) init =
        (List.range m).map f ++ init.drop m := by
  intro m
  induction m with
  | zero => intro _; simp
  | succ m ih =>
    intro hm
    rw [List.range_succ, List.foldl_append, ih (by omega)]
    simp only [List.foldl_cons, List.foldl_nil, List.map_append, List.map_cons, List.map_nil]
    have hl : ((List.range m).map f).length = m := by simp
    rw [List.set_eq_take_append_cons_drop,
      if_pos (by rw [List.length_append, hl, List.length_drop]; omega),
      List.take_left' hl, List.drop_append_eq_append_drop, hl,
      List.drop_of_length_le (by omega), List.drop_drop]
    simp

theorem uint_mask_pos (v i : Nat) (hv : v < 2 ^ 64) :
    decide (v &&& ((1 <<< i) % 2 ^ 64) > 0) = bitOf v i := by
  by_cases hi : i < 64
  · rw [one_shiftLeft_mod i 64 hi, and_two_pow_pos, bitOf_eq_testBit]
  · have h0 : (1 <<< i) % 2 ^ 64 = 0 := by
      rw [Nat.one_shiftLeft]
      exact Nat.mod_eq_zero_of_dvd (Nat.pow_dvd_pow 2 (by omega))
    have ht : v.testBit i = false := by
      apply Nat.testBit_lt_two_pow
      exact Nat.lt_of_lt_of_le hv (Nat.pow_le_pow_right (by omega) (by omega))
    rw [h0, bitOf_eq_testBit, ht]
    simp

theorem length_uintBits (w v : Nat) : (uintBits w v).length = w := by
  simp [uintBits]

theorem getElem?_uintBits (w v i : Nat) (hi : i < w) : (uintBits w v)[i]? = some (bitOf v i) := by
  unfold uintBits
  rw [List.getElem?_map, List.getElem?_range hi]
  rfl

theorem WriteUint_bits (w v : Nat) (hv : v < 2 ^ 64) :
    (List.range w).foldl
      (fun (intBits : List Bool) i => intBits.set i (decide (v &&& ((1 <<< i) % 2 ^ 64) > 0)))
      (List.replicate w false) = uintBits w v := by
  have hf : (fun (intBits : List Bool) i =>
      intBits.set i (decide (v &&& ((1 <<< i) % 2 ^ 64) > 0))) =
      (fun (intBits : List Bool) i => intBits.set i (bitOf v i)) := by
    funext l i
    rw [uint_mask_pos v i hv]
  rw [hf, fill_spec (bitOf v) _ w (by simp), List.drop_of_length_le (by simp), List.append_nil]
  rfl

/-- What `WriteUint` does: it returns no error and writes the encoded bits. -/
theorem WriteUint_spec (buf : BitSetBuffer) (w : Nat) (e : ByteOrder) (v : Nat)
    (hv : v < 2 ^ 64) :
    ∃ enc, (if e = ByteOrder.BigEndian then byteSwapBitsToBig (uintBits w v)
        else some (uintBits w v)) = some enc ∧ enc.length = w ∧
      WriteUint buf w e v = some (none, enc.foldl WriteBit buf) := by
  have henc : ∃ enc, (if e = ByteOrder.BigEndian then byteSwapBitsToBig (uintBits w v)
      else some (uintBits w v)) = some enc ∧ enc.length = w := by
    by_cases he : e = ByteOrder.BigEndian
    · obtain ⟨y, hy, hlen, _⟩ := byteSwapBitsToBig_spec (uintBits w v)
      exact ⟨y, by rw [if_pos he]; exact hy, by rw [hlen, length_uintBits]⟩
    · exact ⟨uintBits w v, by rw [if_neg he], length_uintBits w v⟩
  obtain ⟨enc, henc, hlen⟩ := henc
  refine ⟨enc, henc, hlen, ?_⟩
  unfold WriteUint
  simp only [WriteUint_bits w v hv, henc, WriteBits_eq_foldl, hlen]
  simp

theorem decode_fold (w v : Nat) :
    ∀ m, m ≤ w → m ≤ 64 →
      (List.range m).foldlM (fun (value : Nat) i =>
        match (uintBits w v)[i]? with
        | none => none
        | some bit => some (if bit then (value + (1 <<< i) % 2 ^ 64) % 2 ^ 64 else value)) 0 =
      some (v % 2 ^ m) := by
  intro m
  induction m with
  | zero => intro _ _; simp [Nat.mod_one]
  | succ m ih =>
    intro hw h64
    rw [List.range_succ, List.foldlM_append, ih (by omega) (by omega)]
    simp only [List.foldlM_cons, List.foldlM_nil, Option.some_bind, Option.bind_eq_bind,
      getElem?_uintBits w v m (by omega), one_shiftLeft_mod m 64 (by omega)]
    have hsplit : v % 2 ^ (m + 1) = v % 2 ^ m + 2 ^ m * (v / 2 ^ m % 2) := Nat.mod_pow_succ
    have hlt : v % 2 ^ m < 2 ^ m := Nat.mod_lt _ (Nat.two_pow_pos m)
    have hle : 2 ^ (m + 1) ≤ 2 ^ 64 := Nat.pow_le_pow_right (by omega) h64
    have hp : 2 ^ (m + 1) = 2 * 2 ^ m := by rw [Nat.pow_succ]; omega
    rw [bitOf_eq_testBit, Nat.testBit_to_div_mod]
    by_cases hb : v / 2 ^ m % 2 = 1
    · simp only [hb, decide_True, if_true, Option.bind_some, Option.pure_def]
      rw [hsplit, hb, Nat.mul_one, Nat.mod_eq_of_lt (by omega)]
    · have hb0 : v / 2 ^ m % 2 = 0 := by omega
      simp only [hb0]
      rw [hsplit, hb0]
      simp

theorem ReadBits_full (S : List Bool) (p w : Nat) (d : List Bool) (hp : p + w ≤ S.length)
    (hd : d.length = w) :
    (BitSetBuffer.mk p S).ReadBits (some d) =
      ((w, none), (S.drop p).take w, { pos := p + w, Set := S }) := by
  unfold ReadBits
  simp only
  rw [ReadBits_loop_spec S d.length 0 d p (by omega) (by omega)]
  have hm : Nat.min d.length (S.length - p) = w := by
    simp only [Nat.min_def]
    split <;> omega
  rw [hm]
  simp only [Nat.zero_add, List.take_zero, List.nil_append]
  have hdr : d.drop w = [] := List.drop_of_length_le (by omega)
  rw [hdr, List.append_nil]

theorem ReadBits_short (S : List Bool) (p w : Nat) (d : List Bool) (hp : p ≤ S.length)
    (hw : S.length - p < w) (hd : d.length = w) :
    ((BitSetBuffer.mk p S).ReadBits (some d)).1 = (S.length - p, none) ∧
    ((BitSetBuffer.mk p S).ReadBits (some d)).2.2 = { pos := S.length, Set := S } := by
  unfold ReadBits
  simp only
  rw [ReadBits_loop_spec S d.length 0 d p (by omega) (by omega)]
  have hm : Nat.min d.length (S.length - p) = S.length - p := by
    simp only [Nat.min_def]
    split <;> omega
  rw [hm]
  simp only [Nat.zero_add]
  have e : p + (S.length - p) = S.length := by omega
  rw [e]
  exact ⟨trivial, rfl⟩

/-- What `ReadUint` does when `w` bits are left and they decode to the low
bits of `v`. -/
theorem ReadUint_spec (S : List Bool) (p w : Nat) (e : ByteOrder) (v : Nat) (enc : List Bool)
    (hp : p + w ≤ S.length) (hw : w ≤ 64) (htake : (S.drop p).take w = enc)
    (hdec : (if e = ByteOrder.BigEndian then byteSwapBitsFromBig enc else some enc) =
      some (uintBits w v)) :
    ReadUint { pos := p, Set := S } w e = some ((v % 2 ^ w, none), { pos := p + w, Set := S }) := by
  unfold ReadUint
  simp only [ReadBits_full S p w _ hp (List.length_replicate w false), htake, hdec,
    decode_fold w v w (Nat.le_refl w) hw]
  simp

theorem decode_encode (e : ByteOrder) (bits enc : List Bool)
    (h : (if e = ByteOrder.BigEndian then byteSwapBitsToBig bits else some bits) = some enc) :
    (if e = ByteOrder.BigEndian then byteSwapBitsFromBig enc else some enc) = some bits := by
  by_cases he : e = ByteOrder.BigEndian
  · rw [if_pos he] at h ⊢
    exact byteSwapBitsFromBig_toBig bits enc h
  · rw [if_neg he] at h ⊢
    rw [← Option.some.inj h]

theorem foldl_WriteBit_at_end (S bits : List Bool) :
    bits.foldl WriteBit { pos := S.length, Set := S } =
      { pos := S.length + bits.length, Set := S ++ bits } := by
  have h := WriteBits_spec { pos := S.length, Set := S } bits (Nat.le_refl _)
  rw [WriteBits_eq_foldl] at h
  have h2 := congrArg Prod.snd h
  simp only at h2
  rw [h2, List.take_of_length_le (Nat.le_refl _), List.drop_of_length_le (by omega),
    List.append_nil]

theorem writeUints_spec (e : ByteOrder) :
    ∀ (ps : List (Nat × Nat)) (S : List Bool), (∀ pr ∈ ps, pr.2 < 2 ^ 64) →
      ∃ wire, wireUints e ps = some wire ∧
        writeUints e ps { pos := S.length, Set := S } =
          some (ps.map (fun _ => none), { pos := S.length + wire.length, Set := S ++ wire }) := by
  intro ps
  induction ps with
  | nil =>
    intro S _
    exact ⟨[], rfl, by simp [writeUints]⟩
  | cons pr rest ih =>
    intro S hv
    obtain ⟨enc, henc, hlen, hwrite⟩ := WriteUint_spec { pos := S.length, Set := S } pr.1 e pr.2
      (hv pr (List.mem_cons_self _ _))
    rw [foldl_WriteBit_at_end] at hwrite
    obtain ⟨tl, htl, hrest⟩ := ih (S ++ enc) (fun q hq => hv q (List.mem_cons_of_mem _ hq))
    rw [List.length_append] at hrest
    refine ⟨enc ++ tl, ?_, ?_⟩
    · simp only [wireUints, henc, htl]
    · simp only [writeUints, hwrite, hrest, List.map_cons, List.length_append,
        List.append_assoc, Nat.add_assoc]

theorem readUints_spec (e : ByteOrder) :
    ∀ (ps : List (Nat × Nat)) (wire tail S : List Bool) (p : Nat),
      wireUints e ps = some wire → S.drop p = wire ++ tail → p ≤ S.length →
      (∀ pr ∈ ps, pr.1 ≤ 64) →
      readUints e (ps.map Prod.fst) { pos := p, Set := S } =
        some (ps.map (fun pr => (pr.2 % 2 ^ pr.1, none)),
          { pos := p + wire.length, Set := S }) := by
  intro ps
  induction ps with
  | nil =>
    intro wire tail S p hwire _ _ _
    simp only [wireUints] at hwire
    rw [← Option.some.inj hwire]
    simp [readUints]
  | cons pr rest ih =>
    intro wire tail S p hwire hdrop hp hw
    obtain ⟨enc, henc, hlen⟩ : ∃ enc,
        (if e = ByteOrder.BigEndian then byteSwapBitsToBig (uintBits pr.1 pr.2)
          else some (uintBits pr.1 pr.2)) = some enc ∧ enc.length = pr.1 := by
      by_cases he : e = ByteOrder.BigEndian
      · obtain ⟨y, hy, hl, _⟩ := byteSwapBitsToBig_spec (uintBits pr.1 pr.2)
        exact ⟨y, by rw [if_pos he]; exact hy, by rw [hl, length_uintBits]⟩
      · exact ⟨_, by rw [if_neg he], length_uintBits _ _⟩
    obtain ⟨tl, htl⟩ : ∃ tl, wireUints e rest = some tl := by
      simp only [wireUints, henc] at hwire
      cases h : wireUints e rest with
      | none => rw [h] at hwire; simp at hwire
      | some tl => exact ⟨tl, rfl⟩
    have hwireq : wire = enc ++ tl := by
      simp only [wireUints, henc, htl] at hwire
      exact (Option.some.inj hwire).symm
    subst hwireq
    have hL : (S.drop p).length = (enc ++ tl ++ tail).length := by rw [hdrop]
    rw [List.length_drop, List.length_append, List.length_append] at hL
    have hread := ReadUint_spec S p pr.1 e pr.2 enc (by omega)
      (hw pr (List.mem_cons_self _ _))
      (by rw [hdrop, List.append_assoc, List.take_left' hlen])
      (decode_encode e _ _ henc)
    have hrest := ih tl tail S (p + pr.1) htl
      (by rw [← List.drop_drop, hdrop, List.append_assoc, List.drop_left' hlen])
      (by omega) (fun q hq => hw q (List.mem_cons_of_mem _ hq))
    simp only [List.map_cons, readUints, hread, hrest, List.length_append, hlen, Nat.add_assoc]

theorem packed_getElem? (S : List Bool) (k b : Nat)
    (h : ((List.range ((S.length + 7) / 8)).map (fun m => byteAt S (8 * m)))[k]? = some b) :
    b = byteAt S (8 * k) := by
  rw [List.getElem?_map] at h
  by_cases hk : k < (S.length + 7) / 8
  · rw [List.getElem?_range hk] at h
    simpa using h.symm
  · rw [List.getElem?_eq_none (by simp; omega)] at h
    simp at h

theorem bitOf_byteAt (S : List Bool) (j : Nat) :
    bitOf (byteAt S (8 * (j / 8))) (j % 8) = bitAt S j := by
  rw [bitOf_eq_testBit, testBit_byteAt]
  have e : 8 * (j / 8) + j % 8 = j := Nat.div_add_mod j 8
  have h8 : j % 8 < 8 := Nat.mod_lt _ (by omega)
  rw [e]
  simp [h8]

theorem wireUints_little (w : Nat) :
    ∀ vs : List Nat, ∃ wire,
      wireUints ByteOrder.LittleEndian (vs.map (fun v => (w, v))) = some wire ∧
      wire.length = vs.length * w ∧
      ∀ k i, i < w → wire[k * w + i]? = (vs[k]?).map (fun v => bitOf v i) := by
  intro vs
  induction vs with
  | nil => exact ⟨[], rfl, by simp, by intro k i _; simp⟩
  | cons v rest ih =>
    obtain ⟨tl, htl, hlen, hget⟩ := ih
    refine ⟨uintBits w v ++ tl, ?_, ?_, ?_⟩
    · simp [wireUints, htl]
    · rw [List.length_append, length_uintBits, hlen, List.length_cons, Nat.succ_mul]
      omega
    · intro k i hi
      cases k with
      | zero =>
        rw [Nat.zero_mul, Nat.zero_add,
          List.getElem?_append_left (by rw [length_uintBits]; exact hi),
          getElem?_uintBits w v i hi]
        simp
      | succ k =>
        rw [List.getElem?_append_right (by rw [length_uintBits, Nat.succ_mul]; omega),
          length_uintBits]
        have e : (k + 1) * w + i - w = k * w + i := by rw [Nat.succ_mul]; omega
        rw [e, hget k i hi]
        simp

/-! ## The claims about the unsigned codec -/

/-- C1: for every list of pairs `(w, v)` with `1 <= w <= 64` and `v < 2 ^ w`
and for each byte order, the calls of `WriteUint` in order on the empty buffer
each return no error, and after `ResetToStart` the calls of `ReadUint` with
the same widths in the same order return exactly the values, each with no
error. -/
theorem C1_WriteUint_ReadUint_round_trip (e : ByteOrder) (ps : List (Nat × Nat))
    (h : ∀ pr ∈ ps, 1 ≤ pr.1 ∧ pr.1 ≤ 64 ∧ pr.2 < 2 ^ pr.1) :
    ∃ buf buf2,
      writeUints e ps BitSetBuffer.empty = some (ps.map (fun _ => none), buf) ∧
      readUints e (ps.map Prod.fst) buf.ResetToStart =
        some (ps.map (fun pr => (pr.2, none)), buf2) := by
  have hv : ∀ pr ∈ ps, pr.2 < 2 ^ 64 := by
    intro pr hpr
    exact Nat.lt_of_lt_of_le (h pr hpr).2.2 (Nat.pow_le_pow_right (by omega) (h pr hpr).2.1)
  obtain ⟨wire, hwire, hwrite⟩ := writeUints_spec e ps [] hv
  have hread := readUints_spec e ps wire [] ([] ++ wire) 0 hwire (by simp) (by omega)
    (fun pr hpr => (h pr hpr).2.1)
  refine ⟨{ pos := [].length + wire.length, Set := [] ++ wire },
    { pos := 0 + wire.length, Set := [] ++ wire }, hwrite, ?_⟩
  simp only [ResetToStart]
  rw [hread]
  congr 2
  apply List.map_congr_left
  intro pr hpr
  rw [Nat.mod_eq_of_lt (h pr hpr).2.2]

/-- An instance: three values of widths 11, 3 and 64 in big-endian order. -/
theorem C1_WriteUint_ReadUint_round_trip_witness :
    (∀ pr ∈ [((11 : Nat), (1234 : Nat)), (3, 5), (64, 2 ^ 64 - 1)],
      1 ≤ pr.1 ∧ pr.1 ≤ 64 ∧ pr.2 < 2 ^ pr.1) ∧
    ∃ buf buf2,
      writeUints ByteOrder.BigEndian [(11, 1234), (3, 5), (64, 2 ^ 64 - 1)] BitSetBuffer.empty =
        some ([(11, 1234), (3, 5), (64, 2 ^ 64 - 1)].map (fun _ => none), buf) ∧
      readUints ByteOrder.BigEndian ([(11, 1234), (3, 5), (64, 2 ^ 64 - 1)].map Prod.fst)
          buf.ResetToStart =
        some ([(11, 1234), (3, 5), (64, 2 ^ 64 - 1)].map (fun pr => (pr.2, none)), buf2) :=
  ⟨by decide, C1_WriteUint_ReadUint_round_trip ByteOrder.BigEndian
    [(11, 1234), (3, 5), (64, 2 ^ 64 - 1)] (by decide)⟩

/-- C4: for every width `w` (so for `1 <= w <= 64`) and `uint64` values `vs`, the
little-endian calls of `WriteUint` in order on the empty buffer return no error
and leave `len vs * w` bits, bit `k * w + i` being bit `i` of `vs[k]`; `Bytes`
then returns `ceil(len vs * w / 8)` bytes, bit `j mod 8` of byte `j div 8`
being stored bit `j`, and zero at the padding positions; width 4 and the values
1, 2, 3, 4 give `0x21, 0x43`, width 6 gives `0x81, 0x30, 0x10`. -/
theorem C4_little_endian_packing (w : Nat) (vs : List Nat) (hv : ∀ v ∈ vs, v < 2 ^ 64) :
    (∃ buf, writeUints ByteOrder.LittleEndian (vs.map (fun v => (w, v))) BitSetBuffer.empty =
        some ((vs.map (fun v => (w, v))).map (fun _ => none), buf) ∧
      buf.Set.length = vs.length * w ∧
      (∀ k i, i < w → buf.Set[k * w + i]? = (vs[k]?).map (fun v => bitOf v i)) ∧
      ∃ out, buf.Bytes = some (out, buf) ∧ out.length = (vs.length * w + 7) / 8 ∧
        ∀ j b, out[j / 8]? = some b →
          b < 256 ∧ bitOf b (j % 8) = bitAt buf.Set j ∧
            (vs.length * w ≤ j → bitOf b (j % 8) = false)) ∧
    (writeUints ByteOrder.LittleEndian [(4, 1), (4, 2), (4, 3), (4, 4)] BitSetBuffer.empty).bind
        (fun r => r.2.Bytes.map Prod.fst) = some [0x21, 0x43] ∧
    (writeUints ByteOrder.LittleEndian [(6, 1), (6, 2), (6, 3), (6, 4)] BitSetBuffer.empty).bind
        (fun r => r.2.Bytes.map Prod.fst) = some [0x81, 0x30, 0x10] := by
  refine ⟨?_, by decide, by decide⟩
  obtain ⟨wire, hwire, hlen, hget⟩ := wireUints_little w vs
  obtain ⟨wire2, hwire2, hwrite⟩ := writeUints_spec ByteOrder.LittleEndian
    (vs.map (fun v => (w, v))) [] (by
      intro pr hpr
      obtain ⟨v, hvm, rfl⟩ := List.mem_map.mp hpr
      exact hv v hvm)
  rw [hwire] at hwire2
  have hww : wire2 = wire := (Option.some.inj hwire2).symm
  subst hww
  refine ⟨_, hwrite, by simpa using hlen, ?_, ?_⟩
  · intro k i hi
    simpa using hget k i hi
  · refine ⟨_, Bytes_spec _, by simp [hlen], ?_⟩
    intro j b hb
    simp only [List.nil_append] at hb ⊢
    have hbe := packed_getElem? _ _ _ hb
    subst hbe
    refine ⟨byteAt_lt _ _, bitOf_byteAt _ j, ?_⟩
    intro hj
    rw [bitOf_byteAt, bitAt_of_le _ _ (by omega)]

/-- An instance: width 6 and the values 1, 2, 3, 4. -/
theorem C4_little_endian_packing_witness :
    (∀ v ∈ ([1, 2, 3, 4] : List Nat), v < 2 ^ 64) ∧
    ∃ buf, writeUints ByteOrder.LittleEndian (([1, 2, 3, 4] : List Nat).map (fun v => (6, v)))
        BitSetBuffer.empty =
        some ((([1, 2, 3, 4] : List Nat).map (fun v => (6, v))).map (fun _ => none), buf) ∧
      buf.Set.length = ([1, 2, 3, 4] : List Nat).length * 6 ∧
      (∀ k i, i < 6 → buf.Set[k * 6 + i]? =
        (([1, 2, 3, 4] : List Nat)[k]?).map (fun v => bitOf v i)) ∧
      ∃ out, buf.Bytes = some (out, buf) ∧
        out.length = (([1, 2, 3, 4] : List Nat).length * 6 + 7) / 8 ∧
        ∀ j b, out[j / 8]? = some b →
          b < 256 ∧ bitOf b (j % 8) = bitAt buf.Set j ∧
            (([1, 2, 3, 4] : List Nat).length * 6 ≤ j → bitOf b (j % 8) = false) :=
  ⟨by decide, (C4_little_endian_packing 6 [1, 2, 3, 4] (by decide)).1⟩

/-! ## Bits of integers -/

theorem int_eq_of_testBit_eq (a b : Int) (h : ∀ j, a.testBit j = b.testBit j) : a = b := by
  cases a with
  | ofNat m =>
    cases b with
    | ofNat n =>
      congr 1
      exact Nat.eq_of_testBit_eq h
    | negSucc n =>
      exfalso
      have h1 := h (m + n)
      simp only [Int.testBit] at h1
      have hm : m.testBit (m + n) = false :=
        Nat.testBit_lt_two_pow (Nat.lt_of_le_of_lt (Nat.le_add_right m n) (Nat.lt_two_pow _))
      have hn : n.testBit (m + n) = false :=
        Nat.testBit_lt_two_pow (Nat.lt_of_le_of_lt (Nat.le_add_left n m) (Nat.lt_two_pow _))
      rw [hm, hn] at h1
      simp at h1
  | negSucc m =>
    cases b with
    | ofNat n =>
      exfalso
      have h1 := h (m + n)
      simp only [Int.testBit] at h1
      have hm : m.testBit (m + n) = false :=
        Nat.testBit_lt_two_pow (Nat.lt_of_le_of_lt (Nat.le_add_right m n) (Nat.lt_two_pow _))
      have hn : n.testBit (m + n) = false :=
        Nat.testBit_lt_two_pow (Nat.lt_of_le_of_lt (Nat.le_add_left n m) (Nat.lt_two_pow _))
      rw [hm, hn] at h1
      simp at h1
    | negSucc n =>
      congr 1
      apply Nat.eq_of_testBit_eq
      intro j
      have h1 := h j
      simp only [Int.testBit] at h1
      cases hx : m.testBit j <;> cases hy : n.testBit j <;> simp [hx, hy] at h1 ⊢

theorem int_testBit_two_pow (i j : Nat) : ((2 : Int) ^ i).testBit j = decide (i = j) := by
  have e : ((2 : Int) ^ i) = Int.ofNat (2 ^ i) := by simp
  rw [e]
  simp only [Int.testBit]
  exact Nat.testBit_two_pow

theorem wrapInt64_two_pow (i : Nat) (hi : i ≤ 62) : wrapInt64 (2 ^ i) = 2 ^ i := by
  have h1 : (2 : Int) ^ i ≤ 2 ^ 62 := pow_le_pow_right₀ (by norm_num) hi
  have h0 : (0 : Int) < 2 ^ i := by positivity
  unfold wrapInt64
  norm_num at h1 ⊢
  rw [Int.emod_eq_of_lt (by omega) (by omega)]
  omega

theorem wrapInt64_neg_one : wrapInt64 (0 - 1) = -1 := by decide

theorem int_testBit_zero (j : Nat) : Int.testBit 0 j = false := by
  show Nat.testBit 0 j = false
  exact Nat.zero_testBit j

theorem int_testBit_neg_one (j : Nat) : Int.testBit (-1) j = true := by
  show (!Nat.testBit 0 j) = true
  rw [Nat.zero_testBit]
  rfl

theorem int_land_two_pow (v : Int) (i : Nat) :
    Int.land v (2 ^ i) = if v.testBit i then 2 ^ i else 0 := by
  apply int_eq_of_testBit_eq
  intro j
  rw [Int.testBit_land, int_testBit_two_pow]
  by_cases hj : i = j
  · subst hj
    cases hv : v.testBit i
    · simp [int_testBit_zero]
    · simp [int_testBit_two_pow]
  · cases hv : v.testBit i
    · simp [hj, int_testBit_zero]
    · simp [hj, int_testBit_two_pow]

theorem int_mask_pos (v : Int) (i : Nat) (hi : i ≤ 62) :
    decide (Int.land v (wrapInt64 (2 ^ i)) > 0) = v.testBit i := by
  rw [wrapInt64_two_pow i hi, int_land_two_pow]
  have h0 : (0 : Int) < 2 ^ i := by positivity
  cases hv : v.testBit i
  · simp
  · simp [h0]

theorem int_testBit_of_range (w : Nat) (v : Int) (j : Nat)
    (hlo : -(2 : Int) ^ (w - 1) ≤ v) (hhi : v < (2 : Int) ^ (w - 1)) (hj : w - 1 ≤ j) :
    v.testBit j = decide (v < 0) := by
  have hpow : (2 : Nat) ^ (w - 1) ≤ 2 ^ j := Nat.pow_le_pow_right (by omega) hj
  cases v with
  | ofNat m =>
    have hm : m < 2 ^ (w - 1) := by
      have : ((m : Nat) : Int) < ((2 ^ (w - 1) : Nat) : Int) := by
        simpa using hhi
      exact_mod_cast this
    simp only [Int.testBit]
    rw [Nat.testBit_lt_two_pow (by omega)]
    simp
  | negSucc m =>
    have hm : m < 2 ^ (w - 1) := by
      have h2 : -((2 ^ (w - 1) : Nat) : Int) ≤ Int.negSucc m := by
        simpa using hlo
      rw [Int.negSucc_eq] at h2
      omega
    simp only [Int.testBit]
    rw [Nat.testBit_lt_two_pow (by omega)]
    simp [Int.negSucc_lt_zero]

/-! ## The signed codec -/

theorem length_sintBits (w : Nat) (v : Int) (hw : 1 ≤ w) : (sintBits w v).length = w := by
  simp only [sintBits, List.length_append, List.length_map, List.length_range,
    List.length_singleton]
  omega

theorem getElem?_sintBits_lt (w : Nat) (v : Int) (i : Nat) (hi : i < w - 1) :
    (sintBits w v)[i]? = some (v.testBit i) := by
  unfold sintBits
  rw [List.getElem?_append_left (by simpa using hi), List.getElem?_map, List.getElem?_range hi]
  rfl

theorem getElem?_sintBits_last (w : Nat) (v : Int) :
    (sintBits w v)[w - 1]? = some (decide (v < 0)) := by
  unfold sintBits
  rw [List.getElem?_append_right (by simp)]
  simp

theorem WriteInt_bits (w : Nat) (v : Int) (hw1 : 1 ≤ w) (hw64 : w ≤ 64) :
    (List.range (w - 1)).foldl
      (fun (intBits : List Bool) i =>
        intBits.set i (decide (Int.land v (wrapInt64 (2 ^ i)) > 0)))
      (List.replicate w false) =
    (List.range (w - 1)).map (fun i => v.testBit i) ++ [false] := by
  rw [List.foldl_ext _ (fun (intBits : List Bool) i => intBits.set i (v.testBit i))]
  · rw [fill_spec (fun i => v.testBit i) _ (w - 1) (by simp)]
    congr 1
    rw [List.drop_replicate]
    have e : w - (w - 1) = 1 := by omega
    rw [e]
    rfl
  · intro l i hi
    have hi2 : i < w - 1 := List.mem_range.mp hi
    rw [int_mask_pos v i (by omega)]

theorem WriteInt_bits_set (w : Nat) (v : Int) :
    ((List.range (w - 1)).map (fun i => v.testBit i) ++ [false]).set
      (((List.range (w - 1)).map (fun i => v.testBit i) ++ [false]).length - 1)
      (decide (v < 0)) = sintBits w v := by
  have hl : ((List.range (w - 1)).map (fun i => v.testBit i)).length = w - 1 := by simp
  rw [List.length_append, hl, List.length_singleton, Nat.add_sub_cancel,
    List.set_eq_take_append_cons_drop,
    if_pos (by rw [List.length_append, hl, List.length_singleton]; omega),
    List.take_left' hl,
    List.drop_of_length_le (by rw [List.length_append, hl, List.length_singleton])]
  rfl

/-- What `WriteInt` does for a width from 1 to 64: it returns no error and
writes the encoded bits. -/
theorem WriteInt_spec (buf : BitSetBuffer) (w : Nat) (e : ByteOrder) (v : Int)
    (hw1 : 1 ≤ w) (hw64 : w ≤ 64) :
    ∃ enc, (if e = ByteOrder.BigEndian then byteSwapBitsToBig (sintBits w v)
        else some (sintBits w v)) = some enc ∧ enc.length = w ∧
      WriteInt buf w e v = some (none, enc.foldl WriteBit buf) := by
  have henc : ∃ enc, (if e = ByteOrder.BigEndian then byteSwapBitsToBig (sintBits w v)
      else some (sintBits w v)) = some enc ∧ enc.length = w := by
    by_cases he : e = ByteOrder.BigEndian
    · obtain ⟨y, hy, hlen, _⟩ := byteSwapBitsToBig_spec (sintBits w v)
      exact ⟨y, by rw [if_pos he]; exact hy, by rw [hlen, length_sintBits w v hw1]⟩
    · exact ⟨sintBits w v, by rw [if_neg he], length_sintBits w v hw1⟩
  obtain ⟨enc, henc, hlen⟩ := henc
  refine ⟨enc, henc, hlen, ?_⟩
  unfold WriteInt
  simp only [WriteInt_bits w v hw1 hw64, WriteInt_bits_set w v]
  rw [if_neg (by simp)]
  simp only [henc, WriteBits_eq_foldl, hlen]
  simp

theorem decode_int_fold (bits : List Bool) (top : Bool) :
    ∀ m, m ≤ bits.length → m ≤ 63 →
      ∃ value, (List.range m).foldlM (fun (value : Int) i =>
          match bits[i]? with
          | none => none
          | some bit =>
            some (if bit then
              Int.lor (Int.land value (Int.lnot (wrapInt64 (2 ^ i)))) (wrapInt64 (2 ^ i))
            else Int.land value (Int.lnot (wrapInt64 (2 ^ i)))))
          (if top then wrapInt64 (0 - 1) else 0) = some value ∧
        ∀ j, value.testBit j = if j < m then bitAt bits j else top := by
  intro m
  induction m with
  | zero =>
    intro _ _
    refine ⟨_, rfl, ?_⟩
    intro j
    rw [if_neg (Nat.not_lt_zero j)]
    cases top
    · simp only [Bool.false_eq_true, if_false]
      exact int_testBit_zero j
    · simp only [if_true, wrapInt64_neg_one]
      exact int_testBit_neg_one j
  | succ m ih =>
    intro hlen h63
    obtain ⟨value, hval, hbits⟩ := ih (by omega) (by omega)
    have hm : m < bits.length := by omega
    rw [List.range_succ, List.foldlM_append, hval]
    simp only [List.foldlM_cons, List.foldlM_nil, Option.some_bind, Option.bind_eq_bind,
      List.getElem?_eq_getElem hm, wrapInt64_two_pow m (by omega)]
    refine ⟨_, rfl, ?_⟩
    intro j
    have hcl : (Int.land value (Int.lnot (2 ^ m))).testBit j =
        (value.testBit j && !decide (m = j)) := by
      rw [Int.testBit_land, Int.testBit_lnot, int_testBit_two_pow]
    by_cases hjm : j = m
    · subst hjm
      rw [if_pos (Nat.lt_succ_self j), bitAt_of_lt _ _ hm]
      simp only [Option.bind_some, Option.pure_def] at *
      cases hb : bits[j]
      · simp only [Bool.false_eq_true, if_false]
        rw [hcl]
        simp
      · simp only [if_true]
        rw [Int.testBit_lor, int_testBit_two_pow]
        simp
    · have hne : ¬ m = j := fun h => hjm h.symm
      have hrest : (if bits[m] = true then Int.lor (Int.land value (Int.lnot (2 ^ m))) (2 ^ m)
          else Int.land value (Int.lnot (2 ^ m))).testBit j = value.testBit j := by
        split
        · rw [Int.testBit_lor, hcl, int_testBit_two_pow]
          simp [hne]
        · rw [hcl]
          simp [hne]
      simp only [Option.bind_some, Option.pure_def] at *
      rw [hrest, hbits j]
      by_cases hj : j < m
      · rw [if_pos hj, if_pos (by omega)]
      · rw [if_neg hj, if_neg (by omega)]

/-- What `ReadInt` does when `w` bits are left and they decode to the signed
bits of a value `v` in the range of the width. -/
theorem ReadInt_spec (S : List Bool) (p w : Nat) (e : ByteOrder) (v : Int) (enc : List Bool)
    (hp : p + w ≤ S.length) (hw1 : 1 ≤ w) (hw : w ≤ 64)
    (hlo : -(2 : Int) ^ (w - 1) ≤ v) (hhi : v < (2 : Int) ^ (w - 1))
    (htake : (S.drop p).take w = enc)
    (hdec : (if e = ByteOrder.BigEndian then byteSwapBitsFromBig enc else some enc) =
      some (sintBits w v)) :
    ReadInt { pos := p, Set := S } w e = some ((v, none), { pos := p + w, Set := S }) := by
  obtain ⟨value, hval, hbits⟩ := decode_int_fold (sintBits w v) (decide (v < 0)) (w - 1)
    (by rw [length_sintBits w v hw1]; omega) (by omega)
  have hv : value = v := by
    apply int_eq_of_testBit_eq
    intro j
    rw [hbits j]
    by_cases hj : j < w - 1
    · rw [if_pos hj]
      unfold bitAt
      rw [getElem?_sintBits_lt w v j hj]
      rfl
    · rw [if_neg hj, int_testBit_of_range w v j hlo hhi (by omega)]
  subst hv
  unfold ReadInt
  simp only [ReadBits_full S p w _ hp (List.length_replicate w false), htake, hdec,
    getElem?_sintBits_last]
  rw [if_neg (by omega), if_neg (by omega)]
  simp only [hval]

/-! ## The claim about the signed codec -/

/-- C3: for a width `w` with `2 <= w <= 64`, each byte order and every value
`v` with `-2 ^ (w-1) <= v < 2 ^ (w-1)`, `WriteInt` on the empty buffer returns
no error, and after `ResetToStart` `ReadInt` with the same width and byte
order returns exactly `v` with no error. -/
theorem C3_WriteInt_ReadInt_round_trip (w : Nat) (e : ByteOrder) (v : Int)
    (hw : 2 ≤ w ∧ w ≤ 64) (hv : -(2 : Int) ^ (w - 1) ≤ v ∧ v < (2 : Int) ^ (w - 1)) :
    ∃ buf, WriteInt BitSetBuffer.empty w e v = some (none, buf) ∧
      ∃ buf2, ReadInt buf.ResetToStart w e = some ((v, none), buf2) := by
  obtain ⟨enc, henc, hlen, hwrite⟩ := WriteInt_spec { pos := ([] : List Bool).length, Set := [] }
    w e v (by omega) hw.2
  rw [foldl_WriteBit_at_end] at hwrite
  refine ⟨{ pos := ([] : List Bool).length + enc.length, Set := [] ++ enc }, hwrite,
    { pos := 0 + w, Set := [] ++ enc }, ?_⟩
  simp only [ResetToStart]
  exact ReadInt_spec ([] ++ enc) 0 w e v enc (by simp [hlen]) (by omega) hw.2 hv.1 hv.2
    (by simp [← hlen]) (decode_encode e _ _ henc)

/-- An instance: the value `-3` in 11 bits, big-endian. -/
theorem C3_WriteInt_ReadInt_round_trip_witness :
    ((2 : Nat) ≤ 11 ∧ 11 ≤ 64) ∧ (-(2 : Int) ^ (11 - 1) ≤ -3 ∧ (-3 : Int) < (2 : Int) ^ (11 - 1)) ∧
    ∃ buf, WriteInt BitSetBuffer.empty 11 ByteOrder.BigEndian (-3) = some (none, buf) ∧
      ∃ buf2, ReadInt buf.ResetToStart 11 ByteOrder.BigEndian = some ((-3, none), buf2) :=
  ⟨by decide, by decide,
    C3_WriteInt_ReadInt_round_trip 11 ByteOrder.BigEndian (-3) (by decide) (by decide)⟩

/-! ## The claims about reading -/

theorem Read_spec (S : List Bool) (p : Nat) (d : List Nat) (hp : p ≤ S.length)
    (hne : p ≠ S.length) :
    (BitSetBuffer.mk p S).Read (some d) =
      ((Nat.min d.length ((S.length - p + 7) / 8), none),
        (List.range (Nat.min d.length ((S.length - p + 7) / 8))).map
            (fun m => byteAt S (p + 8 * m)) ++
          d.drop (Nat.min d.length ((S.length - p + 7) / 8)),
        { pos := Nat.min S.length (p + 8 * d.length), Set := S }) := by
  unfold Read
  have hna : (BitSetBuffer.mk p S).PosAtEnd = false := by
    simp [PosAtEnd, hne]
  simp only [hna]
  rw [Read_loop_spec S d.length 0 d p hp (by omega)]
  simp

/-- C11: `Read` on a `nil` destination returns `(0, error nil passed in)`;
on a destination that is not `nil`, with the cursor at the end, it returns
`(0, io.EOF)`; otherwise it returns no error and the count
`n = min (len d) (ceil ((L - p) / 8))`, leaves the cursor at
`min L (p + 8 * len d)`, and for `k < n` the byte `d[k]` packs the bits
`p + 8k .. p + 8k + 7` least-significant first, positions at or beyond `L` read
as zero; the bytes from index `n` on are left as they were.  The stored bits
`true, false, true` read into a two-byte destination give the count 1 and the
byte 5. -/
theorem C11_Read_outcomes (bsb : BitSetBuffer) (hp : bsb.pos ≤ bsb.Set.length) :
    bsb.Read none = ((0, some GoError.nilPassedIn), [], bsb) ∧
    (∀ d : List Nat,
      (bsb.pos = bsb.Set.length → bsb.Read (some d) = ((0, some GoError.EOF), d, bsb)) ∧
      (bsb.pos ≠ bsb.Set.length →
        (bsb.Read (some d)).1 =
          (Nat.min d.length ((bsb.Set.length - bsb.pos + 7) / 8), none) ∧
        (bsb.Read (some d)).2.2 =
          { pos := Nat.min bsb.Set.length (bsb.pos + 8 * d.length), Set := bsb.Set } ∧
        (bsb.Read (some d)).2.2.pos ≤ bsb.Set.length ∧
        (∀ k, k < Nat.min d.length ((bsb.Set.length - bsb.pos + 7) / 8) →
          ∃ b, (bsb.Read (some d)).2.1[k]? = some b ∧ b < 256 ∧
            ∀ i, i < 8 → bitOf b i = bitAt bsb.Set (bsb.pos + 8 * k + i)) ∧
        (∀ k, Nat.min d.length ((bsb.Set.length - bsb.pos + 7) / 8) ≤ k →
          (bsb.Read (some d)).2.1[k]? = d[k]?))) ∧
    (BitSetBuffer.mk 0 [true, false, true]).Read (some [0, 0]) =
      ((1, none), [5, 0], BitSetBuffer.mk 3 [true, false, true]) := by
  refine ⟨rfl, ?_, by decide⟩
  obtain ⟨p, S⟩ := bsb
  simp only at hp ⊢
  intro d
  constructor
  · intro he
    unfold Read
    have ha : (BitSetBuffer.mk p S).PosAtEnd = true := by simp [PosAtEnd, he]
    simp only [ha, if_true]
  · intro hne
    rw [Read_spec S p d hp hne]
    have hn : Nat.min d.length ((S.length - p + 7) / 8) ≤ d.length := Nat.min_le_left _ _
    have hl : ((List.range (Nat.min d.length ((S.length - p + 7) / 8))).map
        (fun m => byteAt S (p + 8 * m))).length =
        Nat.min d.length ((S.length - p + 7) / 8) := by simp
    refine ⟨rfl, rfl, Nat.min_le_left _ _, ?_, ?_⟩
    · intro k hk
      refine ⟨byteAt S (p + 8 * k), ?_, byteAt_lt _ _, ?_⟩
      · simp only
        rw [List.getElem?_append_left (by omega), List.getElem?_map, List.getElem?_range hk]
        rfl
      · intro i hi
        rw [bitOf_eq_testBit, testBit_byteAt]
        simp [hi]
    · intro k hk
      simp only
      rw [List.getElem?_append_right (by omega), hl, List.getElem?_drop]
      congr 1
      omega

/-- An instance: three stored bits read into a two-byte destination. -/
theorem C11_Read_outcomes_witness :
    (0 : Nat) ≤ [true, false, true].length ∧
    (BitSetBuffer.mk 0 [true, false, true]).Read none =
      ((0, some GoError.nilPassedIn), [], BitSetBuffer.mk 0 [true, false, true]) :=
  ⟨by decide, (C11_Read_outcomes (BitSetBuffer.mk 0 [true, false, true]) (by decide)).1⟩

/-- C12: `ReadBit` returns an error exactly when the cursor is at or beyond
the length; then it returns `false` and leaves the buffer as it was; otherwise
it returns the stored bit at the cursor with no error, moves the cursor by
exactly 1 and leaves the bits. -/
theorem C12_ReadBit (bsb : BitSetBuffer) :
    (bsb.ReadBit.1.2.isSome = true ↔ bsb.Set.length ≤ bsb.pos) ∧
    (bsb.Set.length ≤ bsb.pos →
      bsb.ReadBit = ((false, some GoError.noBitsToRead), bsb)) ∧
    (bsb.pos < bsb.Set.length →
      bsb.Set[bsb.pos]? = some bsb.ReadBit.1.1 ∧ bsb.ReadBit.1.2 = none ∧
      bsb.ReadBit.2 = { pos := bsb.pos + 1, Set := bsb.Set }) := by
  unfold ReadBit
  by_cases h : bsb.Set.length ≤ bsb.pos
  · simp only [dif_pos h]
    refine ⟨by simp [h], fun _ => trivial, fun hlt => absurd hlt (by omega)⟩
  · simp only [dif_neg h]
    have hlt : bsb.pos < bsb.Set.length := by omega
    refine ⟨by simp [h], fun hle => absurd hle h, fun _ => ⟨?_, trivial, trivial⟩⟩
    rw [List.getElem?_eq_getElem hlt]

/-- An instance: the cursor at the end of a one-bit store, and at its start. -/
theorem C12_ReadBit_witness :
    (BitSetBuffer.mk 1 [true]).ReadBit = ((false, some GoError.noBitsToRead),
      BitSetBuffer.mk 1 [true]) :=
  (C12_ReadBit (BitSetBuffer.mk 1 [true])).2.1 (by decide)

/-- C14: on every buffer state (so on every one with the cursor inside the
store) `Bytes` returns and leaves the cursor and the bits exactly as they were,
and what it returns is the same for every cursor position on the same bits. -/
theorem C14_Bytes_snapshot (bsb : BitSetBuffer) :
    ∃ out, bsb.Bytes = some (out, bsb) ∧
      ∀ p, (BitSetBuffer.mk p bsb.Set).Bytes = some (out, BitSetBuffer.mk p bsb.Set) :=
  ⟨_, Bytes_spec bsb, fun p => Bytes_spec (BitSetBuffer.mk p bsb.Set)⟩

/-- An instance: twelve bits with the cursor at 5. -/
theorem C14_Bytes_snapshot_witness :
    ∃ out, (BitSetBuffer.mk 5 [false, false, false, false, true, true, true, true,
        true, true, true, true]).Bytes =
        some (out, BitSetBuffer.mk 5 [false, false, false, false, true, true, true, true,
          true, true, true, true]) ∧
      ∀ p, (BitSetBuffer.mk p [false, false, false, false, true, true, true, true,
        true, true, true, true]).Bytes =
        some (out, BitSetBuffer.mk p [false, false, false, false, true, true, true, true,
          true, true, true, true]) :=
  C14_Bytes_snapshot (BitSetBuffer.mk 5 [false, false, false, false, true, true,
    true, true, true, true, true, true])

/-! ## The cursor invariant -/

theorem NewFromBits_eq (bits : List Bool) :
    NewFromBits bits = (some { pos := 0, Set := bits }, none) := by
  unfold NewFromBits
  rw [WriteBits_spec _ _ (by simp [BitSetBuffer.empty])]
  simp [BitSetBuffer.empty]

/-- Every public operation returns, keeps the cursor inside the store and does
not shorten the store. -/
theorem step_spec (s : BitSetBuffer) (op : Op) (hs : s.pos ≤ s.Set.length) :
    ∃ t, step s op = some t ∧ t.pos ≤ t.Set.length ∧ s.Set.length ≤ t.Set.length := by
  obtain ⟨p, S⟩ := s
  simp only at hs
  cases op with
  | WriteBit bit =>
    refine ⟨_, rfl, ?_⟩
    rw [WriteBit_spec _ _ hs]
    simp only [List.length_append, List.length_take, List.length_cons, List.length_drop]
    omega
  | WriteBits bits =>
    refine ⟨_, rfl, ?_⟩
    rw [WriteBits_spec _ _ hs]
    simp only [List.length_append, List.length_take, List.length_drop]
    omega
  | Write bytes =>
    refine ⟨_, rfl, ?_⟩
    rw [Write_eq_WriteBits, WriteBits_spec _ _ hs]
    simp only [List.length_append, List.length_take, List.length_drop]
    omega
  | ReadBit =>
    refine ⟨_, rfl, ?_⟩
    unfold ReadBit
    by_cases h : S.length ≤ p
    · simp only [dif_pos h]
      omega
    · simp only [dif_neg h]
      omega
  | ReadBits bits =>
    refine ⟨_, rfl, ?_⟩
    cases bits with
    | none => exact ⟨hs, Nat.le_refl _⟩
    | some d =>
      unfold ReadBits
      simp only
      rw [ReadBits_loop_spec S d.length 0 d p hs (by omega)]
      have h : Nat.min d.length (S.length - p) ≤ S.length - p := Nat.min_le_right _ _
      simp only
      omega
  | Read bytes =>
    refine ⟨_, rfl, ?_⟩
    cases bytes with
    | none => exact ⟨hs, Nat.le_refl _⟩
    | some d =>
      by_cases he : p = S.length
      · unfold Read
        have ha : (BitSetBuffer.mk p S).PosAtEnd = true := by simp [PosAtEnd, he]
        simp only [ha, if_true]
        omega
      · rw [Read_spec S p d hs he]
        exact ⟨Nat.min_le_left _ _, Nat.le_refl _⟩
  | ResetToStart => exact ⟨_, rfl, Nat.zero_le _, Nat.le_refl _⟩
  | ResetToEnd => exact ⟨_, rfl, Nat.le_refl _, Nat.le_refl _⟩
  | PosAtEnd => exact ⟨_, rfl, hs, Nat.le_refl _⟩
  | Bytes =>
    refine ⟨BitSetBuffer.mk p S, ?_, hs, Nat.le_refl _⟩
    simp only [step, Bytes_spec]
    rfl

theorem Reachable_inv (s : BitSetBuffer) (h : Reachable s) : s.pos ≤ s.Set.length := by
  induction h with
  | empty => exact Nat.le_refl _
  | fromBytes bytes buf hb =>
    rw [NewFromBytes_eq] at hb
    rw [← Option.some.inj hb]
    exact Nat.zero_le _
  | fromBits bits buf hb =>
    rw [NewFromBits_eq] at hb
    rw [← Option.some.inj hb]
    exact Nat.zero_le _
  | step s op t _ hst ih =>
    obtain ⟨t2, ht2, hinv, _⟩ := step_spec s op ih
    rw [ht2] at hst
    rw [← Option.some.inj hst]
    exact hinv

/-- C13: in every state reachable from the empty buffer or from a buffer
returned by `NewFromBytes` or `NewFromBits` by public operations the cursor is
at most the length of the bits (it is a natural number, so it is not negative),
and from such a state every public operation returns and does not make the bit
sequence shorter. -/
theorem C13_cursor_invariant :
    (∀ s, Reachable s → 0 ≤ s.pos ∧ s.pos ≤ s.Set.length) ∧
    (∀ s op, Reachable s → ∃ t, step s op = some t ∧ s.Set.length ≤ t.Set.length) := by
  constructor
  · intro s hs
    exact ⟨Nat.zero_le _, Reachable_inv s hs⟩
  · intro s op hs
    obtain ⟨t, ht, _, hlen⟩ := step_spec s op (Reachable_inv s hs)
    exact ⟨t, ht, hlen⟩

/-- An instance: the buffer made from one byte, after `ResetToEnd` and a write
of one bit. -/
theorem C13_cursor_invariant_witness :
    Reachable (BitSetBuffer.mk 9 [true, false, false, false, false, false, false, false, true]) ∧
    (9 : Nat) ≤ [true, false, false, false, false, false, false, false, true].length :=
  have h : Reachable (BitSetBuffer.mk 9
      [true, false, false, false, false, false, false, false, true]) :=
    Reachable.step (BitSetBuffer.mk 8 [true, false, false, false, false, false, false, false])
      (Op.WriteBit true) _
      (Reachable.step (BitSetBuffer.mk 0 [true, false, false, false, false, false, false, false])
        Op.ResetToEnd _
        (Reachable.fromBytes [1] (BitSetBuffer.mk 0
          [true, false, false, false, false, false, false, false]) (by decide))
        (by decide))
      (by decide)
  ⟨h, (C13_cursor_invariant.1 _ h).2⟩

/-! ## The forward transform as a reversal of chunks -/

theorem reverseChunks_go_spec :
    ∀ (fuel : Nat) (x : List Bool), x.length ≤ 8 * (fuel + 1) →
      (reverseChunks.go fuel x).length = x.length ∧
      ∀ q, q < x.length → (reverseChunks.go fuel x)[q]? = x[toBigSource x.length q]? := by
  intro fuel
  induction fuel with
  | zero =>
    intro x hx
    refine ⟨rfl, ?_⟩
    intro q hq
    simp only [reverseChunks.go]
    congr 1
    unfold toBigSource
    simp only [Nat.min_def]
    split <;> omega
  | succ fuel ih =>
    intro x hx
    simp only [reverseChunks.go]
    by_cases h8 : x.length ≤ 8
    · rw [if_pos h8]
      refine ⟨rfl, ?_⟩
      intro q hq
      congr 1
      unfold toBigSource
      simp only [Nat.min_def]
      split <;> omega
    · rw [if_neg h8]
      have hd : (x.drop 8).length = x.length - 8 := List.length_drop 8 x
      obtain ⟨hlen, hget⟩ := ih (x.drop 8) (by omega)
      have ht : (x.take 8).length = 8 := by
        rw [List.length_take]
        omega
      constructor
      · rw [List.length_append, hlen, hd, ht]
        omega
      · intro q hq
        by_cases hq2 : q < x.length - 8
        · rw [List.getElem?_append_left (by omega), hget q (by omega), List.getElem?_drop, hd]
          congr 1
          unfold toBigSource
          simp only [Nat.min_def]
          split <;> split <;> omega
        · rw [List.getElem?_append_right (by omega), hlen, hd,
            List.getElem?_take_of_lt (by omega)]
          congr 1
          unfold toBigSource
          simp only [Nat.min_def]
          split <;> omega

/-- The forward transform returns the chunks in reverse order. -/
theorem byteSwapBitsToBig_eq_reverseChunks (x : List Bool) :
    byteSwapBitsToBig x = some (reverseChunks x) := by
  obtain ⟨y, hy, hlen, hget⟩ := byteSwapBitsToBig_spec x
  obtain ⟨hlen2, hget2⟩ := reverseChunks_go_spec x.length x (by omega)
  rw [hy]
  congr 1
  apply List.ext_getElem?
  intro q
  unfold reverseChunks
  by_cases hq : q < x.length
  · rw [hget q hq, hget2 q hq]
  · rw [List.getElem?_eq_none (by omega), List.getElem?_eq_none (by omega)]

theorem reverseChunks_two (c0 c1 : List Bool) (h0 : c0.length = 8) (h1 : c1.length ≤ 8) :
    reverseChunks (c0 ++ c1) = c1 ++ c0 := by
  unfold reverseChunks
  rw [List.length_append, h0]
  by_cases hc : c1.length = 0
  · have e : c1 = [] := List.length_eq_zero.mp hc
    subst e
    simp [reverseChunks.go, h0]
  · have e : 8 + c1.length = (7 + c1.length) + 1 := by omega
    rw [e]
    simp only [reverseChunks.go]
    rw [if_neg (by rw [List.length_append, h0]; omega), List.drop_left' h0, List.take_left' h0]
    congr 1
    have e2 : 7 + c1.length = (6 + c1.length) + 1 := by omega
    rw [e2]
    simp only [reverseChunks.go]
    rw [if_pos h1]

theorem toBigSource_chunk (L i j : Nat) (hj : 8 * i + j < Nat.min (8 * i + 8) L) :
    L - Nat.min (8 * i + 8) L + j < L ∧
    toBigSource L (L - Nat.min (8 * i + 8) L + j) = 8 * i + j := by
  by_cases h : 8 * i + 8 ≤ L
  · have e : Nat.min (8 * i + 8) L = 8 * i + 8 := by
      simp only [Nat.min_def]
      split <;> omega
    rw [e] at hj ⊢
    have hd : (L - 1 - (L - (8 * i + 8) + j)) / 8 = i := by omega
    unfold toBigSource
    rw [hd, e]
    omega
  · have e : Nat.min (8 * i + 8) L = L := by
      simp only [Nat.min_def]
      split <;> omega
    rw [e] at hj ⊢
    have hd : (L - 1 - (L - L + j)) / 8 = i := by omega
    unfold toBigSource
    rw [hd, e]
    omega

/-- C15: on a bit sequence `x` of length `L`, `byteSwapBitsToBig` returns a
sequence of length `L` in which, for every chunk index `i` with `8 * i < L` and
every `j` with `8 * i + j < min (8 * i + 8) L`, the bit at
`L - min (8 * i + 8) L + j` is `x[8 * i + j]`; the result is the concatenation
of the 8-bit chunks of `x` in reverse order, each in its own order, a short
last chunk first; a chunk `c0` of 8 bits followed by a chunk `c1` of at most 8
bits (3 for an 11-bit input) becomes `c1 ++ c0`. -/
theorem C15_byteSwapBitsToBig_reverses_chunks (x : List Bool) :
    (∃ y, byteSwapBitsToBig x = some y ∧ y.length = x.length ∧
      (∀ i j, 8 * i < x.length → 8 * i + j < Nat.min (8 * i + 8) x.length →
        y[x.length - Nat.min (8 * i + 8) x.length + j]? = x[8 * i + j]?) ∧
      y = reverseChunks x) ∧
    (∀ c0 c1 : List Bool, c0.length = 8 → c1.length ≤ 8 →
      byteSwapBitsToBig (c0 ++ c1) = some (c1 ++ c0)) := by
  constructor
  · obtain ⟨y, hy, hlen, hget⟩ := byteSwapBitsToBig_spec x
    refine ⟨y, hy, hlen, ?_, ?_⟩
    · intro i j _ hj
      have h := toBigSource_chunk x.length i j hj
      rw [hget _ h.1, h.2]
    · have h := byteSwapBitsToBig_eq_reverseChunks x
      rw [hy] at h
      exact Option.some.inj h
  · intro c0 c1 h0 h1
    rw [byteSwapBitsToBig_eq_reverseChunks, reverseChunks_two c0 c1 h0 h1]

/-- An instance: the 11-bit input of the test of the transform. -/
theorem C15_byteSwapBitsToBig_reverses_chunks_witness :
    byteSwapBitsToBig ([true, true, false, false, true, false, true, true] ++
      [false, false, true]) =
      some ([false, false, true] ++ [true, true, false, false, true, false, true, true]) :=
  (C15_byteSwapBitsToBig_reverses_chunks []).2
    [true, true, false, false, true, false, true, true] [false, false, true]
    (by decide) (by decide)

/-! ## The signed layout and two's complement -/

theorem int_testBit_eq_mod (v : Int) (i : Nat) (hi : i < 64) :
    v.testBit i = ((v % 2 ^ 64).toNat).testBit i := by
  cases v with
  | ofNat m =>
    have e : ((Int.ofNat m) % 2 ^ 64).toNat = m % 2 ^ 64 := by
      have : (Int.ofNat m : Int) = (m : Int) := rfl
      rw [this]
      omega
    rw [e, Nat.testBit_mod_two_pow]
    simp [Int.testBit, hi]
  | negSucc m =>
    have e : ((Int.negSucc m) % 2 ^ 64).toNat = 2 ^ 64 - (m % 2 ^ 64 + 1) := by
      rw [Int.negSucc_eq]
      omega
    have hlt : m % 2 ^ 64 < 2 ^ 64 := Nat.mod_lt _ (by norm_num)
    rw [e, Nat.testBit_two_pow_sub_succ hlt, Nat.testBit_mod_two_pow]
    simp [Int.testBit, hi]

theorem sintBits_eq_twosComplementBits (w : Nat) (v : Int) (hw1 : 1 ≤ w) (hw : w ≤ 64)
    (hlo : -(2 : Int) ^ (w - 1) ≤ v) (hhi : v < (2 : Int) ^ (w - 1)) :
    sintBits w v = twosComplementBits w v := by
  apply List.ext_getElem?
  intro i
  unfold twosComplementBits
  by_cases hi : i < w
  · rw [getElem?_uintBits _ _ _ hi, bitOf_eq_testBit, ← int_testBit_eq_mod v i (by omega)]
    by_cases hi2 : i < w - 1
    · rw [getElem?_sintBits_lt w v i hi2]
    · have e : i = w - 1 := by omega
      rw [e, getElem?_sintBits_last, int_testBit_of_range w v (w - 1) hlo hhi (Nat.le_refl _)]
  · rw [List.getElem?_eq_none (by rw [length_sintBits w v hw1]; omega),
      List.getElem?_eq_none (by rw [length_uintBits]; omega)]

theorem writtenIntBits_eq (w : Nat) (v : Int) (hw1 : 1 ≤ w) (hw : w ≤ 64) :
    writtenIntBits w v = some (sintBits w v) := by
  obtain ⟨enc, henc, _, hwrite⟩ := WriteInt_spec { pos := ([] : List Bool).length, Set := [] }
    w ByteOrder.LittleEndian v hw1 hw
  rw [foldl_WriteBit_at_end] at hwrite
  rw [if_neg (by decide)] at henc
  unfold writtenIntBits
  have he : BitSetBuffer.empty = { pos := ([] : List Bool).length, Set := [] } := rfl
  rw [he, hwrite, ← Option.some.inj henc]
  rfl

/-- C16, as stated, fails: there are no width `w` with `2 <= w <= 64` and
negative value `v` with `-2 ^ (w-1) <= v < 0` for which the bits that `WriteInt`
writes differ from the low `w` bits of the two's-complement representation of
`v`. -/
theorem C16_counterexample :
    ¬ ∃ (w : Nat) (v : Int), 2 ≤ w ∧ w ≤ 64 ∧ -(2 : Int) ^ (w - 1) ≤ v ∧ v < 0 ∧
      writtenIntBits w v ≠ some (twosComplementBits w v) := by
  rintro ⟨w, v, hw2, hw64, hlo, hneg, hne⟩
  apply hne
  have hpos : (0 : Int) < 2 ^ (w - 1) := by positivity
  rw [writtenIntBits_eq w v (by omega) hw64,
    sintBits_eq_twosComplementBits w v (by omega) hw64 hlo (by omega)]

/-- C16, amended: for a width `w` with `2 <= w <= 64` and a value `v` with
`-2 ^ (w-1) <= v < 2 ^ (w-1)`, the `w` bits that `WriteInt` writes, bits
`0 .. w-2` of `v` and then the sign flag `v < 0`, are exactly the low `w` bits
of the two's-complement representation of `v`; the layout differs from two's
complement only outside that range, as for width 4 and the value `-9`. -/
theorem C16_signed_layout_is_twos_complement_in_range (w : Nat) (v : Int)
    (hw : 2 ≤ w ∧ w ≤ 64) (hv : -(2 : Int) ^ (w - 1) ≤ v ∧ v < (2 : Int) ^ (w - 1)) :
    writtenIntBits w v = some (sintBits w v) ∧
    writtenIntBits w v = some (twosComplementBits w v) ∧
    (∃ (w2 : Nat) (v2 : Int), 2 ≤ w2 ∧ w2 ≤ 64 ∧ -(2 : Int) ^ 63 ≤ v2 ∧
      v2 < -(2 : Int) ^ (w2 - 1) ∧
      writtenIntBits w2 v2 ≠ some (twosComplementBits w2 v2)) := by
  refine ⟨writtenIntBits_eq w v (by omega) hw.2, ?_,
    ⟨4, -9, by decide, by decide, by decide, by decide, ?_⟩⟩
  · rw [writtenIntBits_eq w v (by omega) hw.2,
      sintBits_eq_twosComplementBits w v (by omega) hw.2 hv.1 hv.2]
  · rw [writtenIntBits_eq 4 (-9) (by decide) (by decide)]
    intro h
    exact absurd (Option.some.inj h) (by decide)

/-- An instance: the value `-3` in 4 bits. -/
theorem C16_signed_layout_is_twos_complement_in_range_witness :
    ((2 : Nat) ≤ 4 ∧ 4 ≤ 64) ∧ (-(2 : Int) ^ (4 - 1) ≤ -3 ∧ (-3 : Int) < (2 : Int) ^ (4 - 1)) ∧
    writtenIntBits 4 (-3) = some (twosComplementBits 4 (-3)) :=
  ⟨by decide, by decide,
    (C16_signed_layout_is_twos_complement_in_range 4 (-3) (by decide) (by decide)).2.1⟩

/-! ## Integer reads on a short store -/

theorem foldlM_range_some {α : Type} (f : α → Nat → Option α) :
    ∀ (m : Nat) (init : α), (∀ a i, i < m → ∃ b, f a i = some b) →
      ∃ r, (List.range m).foldlM f init = some r := by
  intro m
  induction m with
  | zero =>
    intro init _
    exact ⟨init, rfl⟩
  | succ m ih =>
    intro init h
    obtain ⟨r, hr⟩ := ih init (fun a i hi => h a i (by omega))
    obtain ⟨b, hb⟩ := h r m (by omega)
    refine ⟨b, ?_⟩
    rw [List.range_succ, List.foldlM_append, hr]
    simpa using hb

theorem decodeOrder_total (e : ByteOrder) (enc : List Bool) :
    ∃ bits, (if e = ByteOrder.BigEndian then byteSwapBitsFromBig enc else some enc) =
      some bits ∧ bits.length = enc.length := by
  by_cases he : e = ByteOrder.BigEndian
  · obtain ⟨r, hr, hlen, _⟩ := byteSwapBitsFromBig_spec enc
    exact ⟨r, by rw [if_pos he]; exact hr, hlen⟩
  · exact ⟨enc, by rw [if_neg he], rfl⟩

theorem length_take_drop (S : List Bool) (p w : Nat) (hp : p + w ≤ S.length) :
    ((S.drop p).take w).length = w := by
  rw [List.length_take, List.length_drop]
  omega

/-- With `w` bits left `ReadUint` returns a value and no error and moves the
cursor by `w`. -/
theorem ReadUint_total (S : List Bool) (p w : Nat) (e : ByteOrder) (hp : p + w ≤ S.length) :
    ∃ value, ReadUint { pos := p, Set := S } w e =
      some ((value, none), { pos := p + w, Set := S }) := by
  obtain ⟨bits, hbits, hlen⟩ := decodeOrder_total e ((S.drop p).take w)
  rw [length_take_drop S p w hp] at hlen
  obtain ⟨value, hval⟩ := foldlM_range_some (fun (value : Nat) i =>
      match bits[i]? with
      | none => none
      | some bit => some (if bit then (value + (1 <<< i) % 2 ^ 64) % 2 ^ 64 else value)) w 0
    (by
      intro a i hi
      have hi2 : i < bits.length := by omega
      simp only [List.getElem?_eq_getElem hi2]
      exact ⟨_, rfl⟩)
  refine ⟨value, ?_⟩
  unfold ReadUint
  simp only [ReadBits_full S p w _ hp (List.length_replicate w false), hbits, hval]
  simp

/-- With `w >= 1` bits left `ReadInt` returns a value and no error and moves
the cursor by `w`. -/
theorem ReadInt_total (S : List Bool) (p w : Nat) (e : ByteOrder) (hp : p + w ≤ S.length)
    (hw : 1 ≤ w) :
    ∃ value, ReadInt { pos := p, Set := S } w e =
      some ((value, none), { pos := p + w, Set := S }) := by
  obtain ⟨bits, hbits, hlen⟩ := decodeOrder_total e ((S.drop p).take w)
  rw [length_take_drop S p w hp] at hlen
  have htop : bits[w - 1]? = some bits[w - 1] := List.getElem?_eq_getElem (by omega)
  obtain ⟨value, hval⟩ := foldlM_range_some (fun (value : Int) i =>
      match bits[i]? with
      | none => none
      | some bit =>
        some (if bit then
          Int.lor (Int.land value (Int.lnot (wrapInt64 (2 ^ i)))) (wrapInt64 (2 ^ i))
        else Int.land value (Int.lnot (wrapInt64 (2 ^ i))))) (w - 1)
    (if bits[w - 1] then wrapInt64 (0 - 1) else 0)
    (by
      intro a i hi
      have hi2 : i < bits.length := by omega
      simp only [List.getElem?_eq_getElem hi2]
      exact ⟨_, rfl⟩)
  refine ⟨value, ?_⟩
  unfold ReadInt
  simp only [ReadBits_full S p w _ hp (List.length_replicate w false), hbits, htop]
  rw [if_neg (by omega), if_neg (by omega)]
  simp only [hval]

/-- With fewer than `w` bits left `ReadUint` returns the value 0 and an error
and leaves the cursor at the end of the store. -/
theorem ReadUint_short (S : List Bool) (p w : Nat) (e : ByteOrder) (hp : p ≤ S.length)
    (hw : S.length - p < w) :
    ReadUint { pos := p, Set := S } w e =
      some ((0, some (GoError.onlyBitsRead (S.length - p) w)),
        { pos := S.length, Set := S }) := by
  obtain ⟨h1, h2⟩ := ReadBits_short S p w (List.replicate w false) hp hw
    (List.length_replicate w false)
  unfold ReadUint
  simp only [h1, h2]
  rw [if_pos (by omega)]

/-- With fewer than `w` bits left `ReadInt` returns the value 0 and an error
and leaves the cursor at the end of the store. -/
theorem ReadInt_short (S : List Bool) (p w : Nat) (e : ByteOrder) (hp : p ≤ S.length)
    (hw : S.length - p < w) :
    ReadInt { pos := p, Set := S } w e =
      some ((0, some (GoError.onlyBitsRead (S.length - p) w)),
        { pos := S.length, Set := S }) := by
  obtain ⟨h1, h2⟩ := ReadBits_short S p w (List.replicate w false) hp hw
    (List.length_replicate w false)
  unfold ReadInt
  simp only [h1, h2]
  rw [if_pos (by omega)]

/-- C17: with the cursor `p` inside a store of length `L`, for each byte order
and every width `w`, `ReadUint` returns, with an error exactly when
`L - p < w`; when `w <= L - p` it returns no error and moves the cursor by
exactly `w`; the same holds for `ReadInt` for every width `w >= 1`. -/
theorem C17_integer_reads_fail_on_short_store (bsb : BitSetBuffer) (w : Nat) (e : ByteOrder)
    (hp : bsb.pos ≤ bsb.Set.length) :
    (∃ r, ReadUint bsb w e = some r ∧
      (r.1.2.isSome = true ↔ bsb.Set.length - bsb.pos < w) ∧
      (w ≤ bsb.Set.length - bsb.pos →
        r.1.2 = none ∧ r.2 = { pos := bsb.pos + w, Set := bsb.Set })) ∧
    (1 ≤ w → ∃ r, ReadInt bsb w e = some r ∧
      (r.1.2.isSome = true ↔ bsb.Set.length - bsb.pos < w) ∧
      (w ≤ bsb.Set.length - bsb.pos →
        r.1.2 = none ∧ r.2 = { pos := bsb.pos + w, Set := bsb.Set })) := by
  obtain ⟨p, S⟩ := bsb
  simp only at hp ⊢
  by_cases hw : S.length - p < w
  · constructor
    · refine ⟨_, ReadUint_short S p w e hp hw, ?_, fun h => absurd h (by omega)⟩
      simp [hw]
    · intro _
      refine ⟨_, ReadInt_short S p w e hp hw, ?_, fun h => absurd h (by omega)⟩
      simp [hw]
  · constructor
    · obtain ⟨value, hval⟩ := ReadUint_total S p w e (by omega)
      refine ⟨_, hval, ?_, fun _ => ⟨rfl, rfl⟩⟩
      simp [hw]
    · intro hw1
      obtain ⟨value, hval⟩ := ReadInt_total S p w e (by omega) hw1
      refine ⟨_, hval, ?_, fun _ => ⟨rfl, rfl⟩⟩
      simp [hw]

/-- An instance: three bits left and a width of 4, big-endian. -/
theorem C17_integer_reads_fail_on_short_store_witness :
    (1 : Nat) ≤ [true, false, true, true].length ∧
    ∃ r, ReadUint (BitSetBuffer.mk 1 [true, false, true, true]) 4 ByteOrder.BigEndian = some r ∧
      (r.1.2.isSome = true ↔ [true, false, true, true].length - 1 < 4) ∧
      (4 ≤ [true, false, true, true].length - 1 →
        r.1.2 = none ∧ r.2 = { pos := 1 + 4, Set := [true, false, true, true] }) :=
  ⟨by decide, (C17_integer_reads_fail_on_short_store (BitSetBuffer.mk 1 [true, false, true, true])
    4 ByteOrder.BigEndian (by decide)).1⟩

/-- C20: with the cursor `p` inside a store `S` of length `L` and a width
`w > L - p`, `ReadUint` and `ReadInt` return the value 0 and an error, leave
the bits `S`, and leave the cursor at `L`, the end of the store, not at
`p`. -/
theorem C20_failed_integer_read_is_not_rolled_back (bsb : BitSetBuffer) (w : Nat)
    (e : ByteOrder) (hp : bsb.pos ≤ bsb.Set.length) (hw : bsb.Set.length - bsb.pos < w) :
    (∃ err, ReadUint bsb w e =
      some ((0, some err), { pos := bsb.Set.length, Set := bsb.Set })) ∧
    (∃ err, ReadInt bsb w e =
      some ((0, some err), { pos := bsb.Set.length, Set := bsb.Set })) := by
  obtain ⟨p, S⟩ := bsb
  simp only at hp hw ⊢
  exact ⟨⟨_, ReadUint_short S p w e hp hw⟩, ⟨_, ReadInt_short S p w e hp hw⟩⟩

/-- An instance: two bits left and a width of 8; the cursor ends at 3, not
at 1. -/
theorem C20_failed_integer_read_is_not_rolled_back_witness :
    (1 : Nat) ≤ [true, false, true].length ∧ [true, false, true].length - 1 < 8 ∧
    (∃ err, ReadUint (BitSetBuffer.mk 1 [true, false, true]) 8 ByteOrder.LittleEndian =
      some ((0, some err), { pos := [true, false, true].length, Set := [true, false, true] })) ∧
    (∃ err, ReadInt (BitSetBuffer.mk 1 [true, false, true]) 8 ByteOrder.LittleEndian =
      some ((0, some err), { pos := [true, false, true].length, Set := [true, false, true] })) :=
  ⟨by decide, by decide, C20_failed_integer_read_is_not_rolled_back
    (BitSetBuffer.mk 1 [true, false, true]) 8 ByteOrder.LittleEndian (by decide) (by decide)⟩

/-! ## Truncation and big-endian bytes -/

/-- C18: for a width `w` with `1 <= w <= 64`, each byte order and every
`uint64` value `v`, also one that does not fit in `w` bits, `WriteUint` on the
empty buffer returns no error and writes exactly `w` bits, and after
`ResetToStart` `ReadUint` returns `v mod 2 ^ w` with no error. -/
theorem C18_silent_truncation (w : Nat) (e : ByteOrder) (v : Nat) (hw : 1 ≤ w ∧ w ≤ 64)
    (hv : v < 2 ^ 64) :
    ∃ buf, WriteUint BitSetBuffer.empty w e v = some (none, buf) ∧
      buf.Set.length = w ∧ buf.pos = w ∧
      ∃ buf2, ReadUint buf.ResetToStart w e = some ((v % 2 ^ w, none), buf2) := by
  obtain ⟨enc, henc, hlen, hwrite⟩ := WriteUint_spec { pos := ([] : List Bool).length, Set := [] }
    w e v hv
  rw [foldl_WriteBit_at_end] at hwrite
  refine ⟨{ pos := ([] : List Bool).length + enc.length, Set := [] ++ enc }, hwrite,
    by simp [hlen], by simp [hlen], { pos := 0 + w, Set := [] ++ enc }, ?_⟩
  simp only [ResetToStart]
  exact ReadUint_spec ([] ++ enc) 0 w e v enc (by simp [hlen]) hw.2 (by simp [← hlen])
    (decode_encode e _ _ henc)

/-- An instance: the value 1234 does not fit in 8 bits and reads back as
`1234 mod 256`. -/
theorem C18_silent_truncation_witness :
    ((1 : Nat) ≤ 8 ∧ 8 ≤ 64) ∧ (1234 : Nat) < 2 ^ 64 ∧
    ∃ buf, WriteUint BitSetBuffer.empty 8 ByteOrder.BigEndian 1234 = some (none, buf) ∧
      buf.Set.length = 8 ∧ buf.pos = 8 ∧
      ∃ buf2, ReadUint buf.ResetToStart 8 ByteOrder.BigEndian =
        some ((1234 % 2 ^ 8, none), buf2) :=
  ⟨by decide, by decide, C18_silent_truncation 8 ByteOrder.BigEndian 1234 (by decide) (by decide)⟩

theorem testBit_255 (i : Nat) : (255 : Nat).testBit i = decide (i < 8) := by
  have h := Nat.testBit_two_pow_sub_one 8 i
  simpa using h

theorem toBigSource_whole_bytes (k j i : Nat) (hj : j < k) (hi : i < 8) :
    toBigSource (8 * k) (8 * j + i) = 8 * (k - 1 - j) + i := by
  have hd : (8 * k - 1 - (8 * j + i)) / 8 = k - 1 - j := by omega
  have hm : Nat.min (8 * (k - 1 - j) + 8) (8 * k) = 8 * (k - 1 - j) + 8 := by
    simp only [Nat.min_def]
    split <;> omega
  unfold toBigSource
  rw [hd, hm]
  omega

/-- C19: for `k` from 1 to 8 and `v < 2 ^ (8 * k)`, after the big-endian
`WriteUint` of `v` with width `8 * k` on the empty buffer, `Bytes` returns
exactly `k` bytes, byte `j` being `(v >> (8 * (k - 1 - j))) & 0xFF`, the most
significant byte first; width 16 and the value `0x0102` give the bytes
`0x01, 0x02`. -/
theorem C19_big_endian_whole_bytes (k v : Nat) (hk : 1 ≤ k ∧ k ≤ 8) (hv : v < 2 ^ (8 * k)) :
    (∃ buf out, WriteUint BitSetBuffer.empty (8 * k) ByteOrder.BigEndian v = some (none, buf) ∧
      buf.Bytes = some (out, buf) ∧ out.length = k ∧
      ∀ j, j < k → out[j]? = some ((v >>> (8 * (k - 1 - j))) &&& 0xFF)) ∧
    (WriteUint BitSetBuffer.empty 16 ByteOrder.BigEndian 0x0102).bind
      (fun r => r.2.Bytes.map Prod.fst) = some [0x01, 0x02] := by
  refine ⟨?_, by decide⟩
  have hv64 : v < 2 ^ 64 :=
    Nat.lt_of_lt_of_le hv (Nat.pow_le_pow_right (by omega) (by omega))
  obtain ⟨enc, henc, hlen, hwrite⟩ := WriteUint_spec { pos := ([] : List Bool).length, Set := [] }
    (8 * k) ByteOrder.BigEndian v hv64
  rw [foldl_WriteBit_at_end] at hwrite
  rw [if_pos rfl] at henc
  obtain ⟨y, hy, _, hget⟩ := byteSwapBitsToBig_spec (uintBits (8 * k) v)
  rw [henc] at hy
  have hye : enc = y := Option.some.inj hy
  rw [← hye, length_uintBits] at hget
  refine ⟨{ pos := ([] : List Bool).length + enc.length, Set := [] ++ enc }, _, hwrite,
    Bytes_spec _, ?_, ?_⟩
  · simp only [List.nil_append, List.length_map, List.length_range, hlen]
    omega
  · intro j hj
    simp only [List.nil_append]
    rw [List.getElem?_map, List.getElem?_range (by rw [hlen]; omega)]
    simp only [Option.map_some']
    congr 1
    apply Nat.eq_of_testBit_eq
    intro i
    rw [testBit_byteAt, Nat.testBit_and, Nat.testBit_shiftRight, testBit_255]
    by_cases hi : i < 8
    · unfold bitAt
      rw [hget (8 * j + i) (by omega), toBigSource_whole_bytes k j i hj hi,
        getElem?_uintBits _ _ _ (by omega), bitOf_eq_testBit]
      simp [hi]
    · simp [hi]

/-- An instance: three bytes of the value `0x010203`. -/
theorem C19_big_endian_whole_bytes_witness :
    ((1 : Nat) ≤ 3 ∧ 3 ≤ 8) ∧ (0x010203 : Nat) < 2 ^ (8 * 3) ∧
    ∃ buf out, WriteUint BitSetBuffer.empty (8 * 3) ByteOrder.BigEndian 0x010203 =
        some (none, buf) ∧
      buf.Bytes = some (out, buf) ∧ out.length = 3 ∧
      ∀ j, j < 3 → out[j]? = some ((0x010203 >>> (8 * (3 - 1 - j))) &&& 0xFF) :=
  ⟨by decide, by decide,
    (C19_big_endian_whole_bytes 3 0x010203 (by decide) (by decide)).1⟩

end bitsetbuffer
